import Mathlib

/-!
Verification of the HIP operator kernels of this repository (max pooling
with an explicit argmax index, image padding, batched distance and
similarity metrics, one-hot encoding), shallowly embedded over exact
rational arithmetic.  Each kernel is translated per flat output index,
following the index decomposition and loop structure of the source; the
host-side dispatch code (rank and type checks, `N`/`D` computation) is
translated into total Lean functions returning `Except`/`Option` where the
C++ code can fail.
-/

set_option maxHeartbeats 1000000

namespace Caffe2Hip

/-- Largest finite single-precision float, `FLT_MAX = (2 - 2^-23) * 2^127`.
`MaxPoolForward` initializes its running maximum to `-FLT_MAX`. -/
def fltMax : ℚ := 340282346638528859811704183484516925440

theorem fltMax_eq_pow : fltMax = 2 ^ 128 - 2 ^ 104 := by norm_num [fltMax]

/-- Pooling configuration and tensor dimensions, as passed to the
`MaxPoolForward` / `MaxPoolBackward` kernels of
`max_pool_with_index_hip.cc`. -/
structure PoolParams where
  num : ℕ
  channels : ℕ
  height : ℕ
  width : ℕ
  pooledH : ℕ
  pooledW : ℕ
  kernelH : ℕ
  kernelW : ℕ
  strideH : ℕ
  strideW : ℕ
  padH : ℕ
  padW : ℕ

/-- Window start along height, `hstart = ph * stride_h - pad_h` (a C `int`,
possibly negative, before the clamp `hstart = max(hstart, 0)`). -/
def hstartI (p : PoolParams) (ph : ℕ) : ℤ := ph * p.strideH - p.padH

/-- Window end along height, `hend = min(hstart + kernel_h, height)`,
computed from the unclamped `hstart`. -/
def hendI (p : PoolParams) (ph : ℕ) : ℤ := min (hstartI p ph + p.kernelH) p.height

/-- Window start along width, `wstart = pw * stride_w - pad_w`. -/
def wstartI (p : PoolParams) (pw : ℕ) : ℤ := pw * p.strideW - p.padW

/-- Window end along width, `wend = min(wstart + kernel_w, width)`. -/
def wendI (p : PoolParams) (pw : ℕ) : ℤ := min (wstartI p pw + p.kernelW) p.width

/-- The row indices `h` scanned by the `for(h = hstart; h < hend; ++h)` loop
of `MaxPoolForward`, after the clamp `hstart = max(hstart, 0)`, in order. -/
def windowRows (p : PoolParams) (ph : ℕ) : List ℕ :=
  (List.range ((hendI p ph).toNat - (hstartI p ph).toNat)).map
    (fun k => (hstartI p ph).toNat + k)

/-- The column indices `w` scanned by the inner loop of `MaxPoolForward`. -/
def windowCols (p : PoolParams) (pw : ℕ) : List ℕ :=
  (List.range ((wendI p pw).toNat - (wstartI p pw).toNat)).map
    (fun k => (wstartI p pw).toNat + k)

/-- The `(h, w)` pairs scanned by the window loops of `MaxPoolForward`, in
row-major scan order. -/
def windowPairs (p : PoolParams) (ph pw : ℕ) : List (ℕ × ℕ) :=
  (windowRows p ph).flatMap (fun h => (windowCols p pw).map (fun w => (h, w)))

/-- Output flat-index decomposition of the pooling kernels:
`pw = index % pooled_width`. -/
def pwOf (p : PoolParams) (index : ℕ) : ℕ := index % p.pooledW

/-- Decomposition `ph = (index / pooled_width) % pooled_height`. -/
def phOf (p : PoolParams) (index : ℕ) : ℕ := index / p.pooledW % p.pooledH

/-- Decomposition `c = (index / pooled_width / pooled_height) % channels`. -/
def cOf (p : PoolParams) (index : ℕ) : ℕ := index / p.pooledW / p.pooledH % p.channels

/-- Decomposition `n = index / pooled_width / pooled_height / channels`. -/
def nOf (p : PoolParams) (index : ℕ) : ℕ := index / p.pooledW / p.pooledH / p.channels

/-- `bottom_slice[j]` where
`bottom_slice = bottom_data + (n * channels + c) * height * width`. -/
def sliceVal (p : PoolParams) (bottom : ℕ → ℚ) (n c j : ℕ) : ℚ :=
  bottom ((n * p.channels + c) * (p.height * p.width) + j)

/-- One comparison step of the window scan of `MaxPoolForward`: a candidate
`x` replaces the accumulator `(maxval, maxidx)` exactly when its value is
strictly greater than the running maximum. -/
def scanStep {α : Type} (v : α → ℚ) (g : α → ℤ) (acc : ℚ × ℤ) (x : α) : ℚ × ℤ :=
  if v x > acc.1 then (v x, g x) else acc

/-- The kernel `MaxPoolForward` at one output flat index: the pair
`(top_data[index], mask[index])`.  `maxval` starts at `-FLT_MAX` and
`maxidx` at `-1`; the window is scanned in row-major order and the mask
records the flat spatial index `h * width + w` of the running maximum. -/
def MaxPoolForward (p : PoolParams) (bottom : ℕ → ℚ) (index : ℕ) : ℚ × ℤ :=
  (windowPairs p (phOf p index) (pwOf p index)).foldl
    (scanStep
      (fun hw => sliceVal p bottom (nOf p index) (cOf p index) (hw.1 * p.width + hw.2))
      (fun hw => ((hw.1 * p.width + hw.2 : ℕ) : ℤ)))
    (-fltMax, -1)

section ScanLemmas

variable {α : Type} (v : α → ℚ) (g : α → ℤ)

theorem scanStep_fst (acc : ℚ × ℤ) (x : α) :
    (scanStep v g acc x).1 = max acc.1 (v x) := by
  unfold scanStep
  rcases le_or_lt (v x) acc.1 with h | h
  · rw [if_neg (not_lt.mpr h), max_eq_left h]
  · rw [if_pos h, max_eq_right h.le]

theorem scanFold_fst (l : List α) :
    ∀ acc : ℚ × ℤ, (l.foldl (scanStep v g) acc).1 = l.foldl (fun m x => max m (v x)) acc.1 := by
  induction l with
  | nil => intro acc; rfl
  | cons x t ih =>
      intro acc
      rw [List.foldl_cons, List.foldl_cons, ih, scanStep_fst]

theorem foldl_max_init_le (l : List α) :
    ∀ a : ℚ, a ≤ l.foldl (fun m x => max m (v x)) a := by
  induction l with
  | nil => intro a; exact le_refl a
  | cons y t ih =>
      intro a
      rw [List.foldl_cons]
      exact le_trans (le_max_left a (v y)) (ih _)

theorem scanFold_le_of_mem (l : List α) :
    ∀ (acc : ℚ × ℤ) (x : α), x ∈ l → v x ≤ (l.foldl (scanStep v g) acc).1 := by
  induction l with
  | nil => intro _ x hx; cases hx
  | cons y t ih =>
      intro acc x hx
      rw [List.foldl_cons]
      rcases List.mem_cons.mp hx with rfl | hx
      · have h1 : v x ≤ (scanStep v g acc x).1 := by
          rw [scanStep_fst]; exact le_max_right _ _
        calc v x ≤ (scanStep v g acc x).1 := h1
          _ ≤ (t.foldl (scanStep v g) (scanStep v g acc x)).1 := by
              rw [scanFold_fst]
              exact foldl_max_init_le v t _
      · exact ih _ x hx

theorem scanFold_eq_of_all_le (l : List α) :
    ∀ acc : ℚ × ℤ, (∀ x ∈ l, v x ≤ acc.1) → l.foldl (scanStep v g) acc = acc := by
  induction l with
  | nil => intro acc _; rfl
  | cons y t ih =>
      intro acc h
      rw [List.foldl_cons]
      have hy : v y ≤ acc.1 := h y (List.mem_cons_self _ _)
      have hstep : scanStep v g acc y = acc := by
        unfold scanStep; rw [if_neg (not_lt.mpr hy)]
      rw [hstep]
      exact ih acc (fun x hx => h x (List.mem_cons_of_mem _ hx))

theorem scanFold_mem_or_init (l : List α) :
    ∀ acc : ℚ × ℤ, l.foldl (scanStep v g) acc = acc ∨
      ∃ x ∈ l, l.foldl (scanStep v g) acc = (v x, g x) := by
  induction l with
  | nil => intro acc; exact Or.inl rfl
  | cons y t ih =>
      intro acc
      rw [List.foldl_cons]
      rcases ih (scanStep v g acc y) with h | ⟨x, hx, h⟩
      · rw [h]
        unfold scanStep
        by_cases hv : v y > acc.1
        · rw [if_pos hv]
          exact Or.inr ⟨y, List.mem_cons_self _ _, rfl⟩
        · rw [if_neg hv]
          exact Or.inl rfl
      · exact Or.inr ⟨x, List.mem_cons_of_mem _ hx, h⟩

theorem scanFold_find_first_max (l : List α) :
    ∀ (acc : ℚ × ℤ) (M : ℚ), (∀ x ∈ l, v x ≤ M) → (∃ x ∈ l, v x = M) → acc.1 < M →
      ∃ r ∈ l, l.find? (fun x => decide (M ≤ v x)) = some r ∧
        l.foldl (scanStep v g) acc = (v r, g r) ∧ v r = M := by
  induction l with
  | nil => intro _ _ _ hex _; rcases hex with ⟨x, hx, _⟩; cases hx
  | cons y t ih =>
      intro acc M hle hex hlt
      by_cases hy : M ≤ v y
      · have hyM : v y = M := le_antisymm (hle y (List.mem_cons_self _ _)) hy
        refine ⟨y, List.mem_cons_self _ _, ?_, ?_, hyM⟩
        · exact List.find?_cons_of_pos _ (by simpa using hy)
        · rw [List.foldl_cons]
          have hstep : scanStep v g acc y = (v y, g y) := by
            unfold scanStep; rw [if_pos (by rw [hyM]; exact hlt)]
          rw [hstep]
          exact scanFold_eq_of_all_le v g t (v y, g y)
            (fun x hx => by
              rw [hyM]
              exact hle x (List.mem_cons_of_mem _ hx))
      · push_neg at hy
        have hext : ∃ x ∈ t, v x = M := by
          rcases hex with ⟨x, hx, hxM⟩
          rcases List.mem_cons.mp hx with rfl | hx
          · exact absurd hxM (ne_of_lt hy)
          · exact ⟨x, hx, hxM⟩
        have hlet : ∀ x ∈ t, v x ≤ M :=
          fun x hx => hle x (List.mem_cons_of_mem _ hx)
        have hacc : (scanStep v g acc y).1 < M := by
          rw [scanStep_fst]
          exact max_lt hlt hy
        rcases ih (scanStep v g acc y) M hlet hext hacc with ⟨r, hr, hfind, hfold, hrM⟩
        refine ⟨r, List.mem_cons_of_mem _ hr, ?_, ?_, hrM⟩
        · rw [List.find?_cons_of_neg _ (by simpa using not_le.mpr hy)]
          exact hfind
        · rw [List.foldl_cons]; exact hfold

end ScanLemmas

theorem flat_div (A d D : ℕ) (hd : d < D) : (A * D + d) / D = A := by
  rw [Nat.mul_comm A D, Nat.mul_add_div (by omega), Nat.div_eq_of_lt hd]
  omega

theorem flat_mod (A d D : ℕ) (hd : d < D) : (A * D + d) % D = d := by
  rw [Nat.mul_comm A D, Nat.mul_add_mod, Nat.mod_eq_of_lt hd]

/-- The flat output index `((n * channels + c) * pooled_height + ph) *
pooled_width + pw` decomposes back into `(n, c, ph, pw)` by the div/mod
chain used in the pooling kernels. -/
theorem pool_decomp (p : PoolParams) (n c ph pw : ℕ)
    (hc : c < p.channels) (hph : ph < p.pooledH) (hpw : pw < p.pooledW) :
    pwOf p (((n * p.channels + c) * p.pooledH + ph) * p.pooledW + pw) = pw ∧
    phOf p (((n * p.channels + c) * p.pooledH + ph) * p.pooledW + pw) = ph ∧
    cOf p (((n * p.channels + c) * p.pooledH + ph) * p.pooledW + pw) = c ∧
    nOf p (((n * p.channels + c) * p.pooledH + ph) * p.pooledW + pw) = n := by
  have h1 : (((n * p.channels + c) * p.pooledH + ph) * p.pooledW + pw) / p.pooledW
      = (n * p.channels + c) * p.pooledH + ph := flat_div _ _ _ hpw
  refine ⟨flat_mod _ _ _ hpw, ?_, ?_, ?_⟩
  · unfold phOf
    rw [h1, flat_mod _ _ _ hph]
  · unfold cOf
    rw [h1, flat_div _ _ _ hph, flat_mod _ _ _ hc]
  · unfold nOf
    rw [h1, flat_div _ _ _ hph, flat_div _ _ _ hc]

/-- Claim C1 (amended): for every 4D input and configuration, provided the
clamped window of the output cell `(n, c, ph, pw)` contains at least one
value above `-FLT_MAX`, the output value is the maximum of the input
values over the window, and the kernel result equals the value and flat
spatial index `h * width + w` of the first window cell attaining that
maximum in row-major scan order (`List.find?` on the scan-order window
list), so first-encountered maximum wins on ties. -/
theorem MaxPoolForward_max_first_argmax (p : PoolParams) (bottom : ℕ → ℚ)
    (n c ph pw : ℕ) (hc : c < p.channels) (hph : ph < p.pooledH) (hpw : pw < p.pooledW)
    (hne : ∃ hw ∈ windowPairs p ph pw,
      -fltMax < sliceVal p bottom n c (hw.1 * p.width + hw.2)) :
    (∀ hw ∈ windowPairs p ph pw,
      sliceVal p bottom n c (hw.1 * p.width + hw.2) ≤
        (MaxPoolForward p bottom
          (((n * p.channels + c) * p.pooledH + ph) * p.pooledW + pw)).1) ∧
    (∃ r ∈ windowPairs p ph pw,
      (windowPairs p ph pw).find?
        (fun hw => decide
          ((MaxPoolForward p bottom
              (((n * p.channels + c) * p.pooledH + ph) * p.pooledW + pw)).1 ≤
            sliceVal p bottom n c (hw.1 * p.width + hw.2))) = some r ∧
      MaxPoolForward p bottom
          (((n * p.channels + c) * p.pooledH + ph) * p.pooledW + pw) =
        (sliceVal p bottom n c (r.1 * p.width + r.2),
          ((r.1 * p.width + r.2 : ℕ) : ℤ))) := by
  obtain ⟨hpw', hph', hc', hn'⟩ := pool_decomp p n c ph pw hc hph hpw
  set idx := ((n * p.channels + c) * p.pooledH + ph) * p.pooledW + pw with hidx
  have hMP : MaxPoolForward p bottom idx =
      (windowPairs p ph pw).foldl
        (scanStep
          (fun hw => sliceVal p bottom n c (hw.1 * p.width + hw.2))
          (fun hw => ((hw.1 * p.width + hw.2 : ℕ) : ℤ)))
        (-fltMax, -1) := by
    unfold MaxPoolForward
    rw [hpw', hph', hc', hn']
  set v : ℕ × ℕ → ℚ := fun hw => sliceVal p bottom n c (hw.1 * p.width + hw.2) with hv
  set g : ℕ × ℕ → ℤ := fun hw => ((hw.1 * p.width + hw.2 : ℕ) : ℤ) with hg
  set l := windowPairs p ph pw with hl
  have hub : ∀ hw ∈ l, v hw ≤ (MaxPoolForward p bottom idx).1 := by
    intro hw hmem
    rw [hMP]
    exact scanFold_le_of_mem v g l _ hw hmem
  refine ⟨hub, ?_⟩
  obtain ⟨x0, hx0, hx0v⟩ := hne
  have hMgt : -fltMax < (MaxPoolForward p bottom idx).1 :=
    lt_of_lt_of_le hx0v (hub x0 hx0)
  have hattained : ∃ x ∈ l, v x = (MaxPoolForward p bottom idx).1 := by
    rcases scanFold_mem_or_init v g l (-fltMax, -1) with h | ⟨x, hx, h⟩
    · exfalso
      have : (MaxPoolForward p bottom idx).1 = -fltMax := by rw [hMP, h]
      rw [this] at hMgt
      exact lt_irrefl _ hMgt
    · exact ⟨x, hx, by rw [hMP, h]⟩
  obtain ⟨r, hr, hfind, hfold, hrM⟩ :=
    scanFold_find_first_max v g l (-fltMax, -1) ((MaxPoolForward p bottom idx).1)
      hub hattained hMgt
  refine ⟨r, hr, hfind, ?_⟩
  show MaxPoolForward p bottom idx = (v r, g r)
  rw [hMP, hfold]

/-- Concrete pooling configuration for the C1 witness: `1 x 1 x 4 x 4`
input, `2 x 2` kernel, stride `2`, no padding. -/
def c1Params : PoolParams := ⟨1, 1, 4, 4, 2, 2, 2, 2, 2, 2, 0, 0⟩

/-- Concrete input for the C1 witness: value `j` at flat position `j`. -/
def c1Bottom : ℕ → ℚ := fun j => (j : ℚ)

/-- Witness for C1 (amended): on the `1 x 1 x 4 x 4` input `0..15` with a
`2 x 2` kernel and stride `2`, output cell `(0, 0, 0, 0)` satisfies the
max/first-argmax property. -/
theorem MaxPoolForward_max_first_argmax_witness :
    (∀ hw ∈ windowPairs c1Params 0 0,
      sliceVal c1Params c1Bottom 0 0 (hw.1 * c1Params.width + hw.2) ≤
        (MaxPoolForward c1Params c1Bottom
          (((0 * c1Params.channels + 0) * c1Params.pooledH + 0) * c1Params.pooledW + 0)).1) ∧
    (∃ r ∈ windowPairs c1Params 0 0,
      (windowPairs c1Params 0 0).find?
        (fun hw => decide
          ((MaxPoolForward c1Params c1Bottom
              (((0 * c1Params.channels + 0) * c1Params.pooledH + 0) * c1Params.pooledW + 0)).1 ≤
            sliceVal c1Params c1Bottom 0 0 (hw.1 * c1Params.width + hw.2))) = some r ∧
      MaxPoolForward c1Params c1Bottom
          (((0 * c1Params.channels + 0) * c1Params.pooledH + 0) * c1Params.pooledW + 0) =
        (sliceVal c1Params c1Bottom 0 0 (r.1 * c1Params.width + r.2),
          ((r.1 * c1Params.width + r.2 : ℕ) : ℤ))) :=
  MaxPoolForward_max_first_argmax c1Params c1Bottom 0 0 0 0
    (by decide) (by decide) (by decide)
    ⟨(1, 1), by decide, by norm_num [sliceVal, c1Params, c1Bottom, fltMax]⟩

/-- Configuration for the C1 counterexample: `1 x 1 x 1 x 1` input,
`1 x 1` kernel, stride `1`, no padding. -/
def c1CexParams : PoolParams := ⟨1, 1, 1, 1, 1, 1, 1, 1, 1, 1, 0, 0⟩

/-- Counterexample to C1 as stated: on an input whose single value is
`-FLT_MAX`, the window of output cell `(0, 0, 0, 0)` is the single cell
`(0, 0)`, whose value equals the output value (it is the first maximum of
the window, at flat spatial index `0`), yet the recorded mask is `-1`, not
`0`. -/
theorem MaxPoolForward_mask_cex :
    windowPairs c1CexParams 0 0 = [(0, 0)] ∧
    MaxPoolForward c1CexParams (fun _ => -fltMax) 0 = (-fltMax, -1) ∧
    sliceVal c1CexParams (fun _ => -fltMax) 0 0 (0 * c1CexParams.width + 0) =
      (MaxPoolForward c1CexParams (fun _ => -fltMax) 0).1 ∧
    (MaxPoolForward c1CexParams (fun _ => -fltMax) 0).2 ≠
      ((0 * c1CexParams.width + 0 : ℕ) : ℤ) := by
  have hwin : windowPairs c1CexParams 0 0 = [(0, 0)] := by decide
  have hmp : MaxPoolForward c1CexParams (fun _ => -fltMax) 0 = (-fltMax, -1) := by
    unfold MaxPoolForward
    have h1 : phOf c1CexParams 0 = 0 := rfl
    have h2 : pwOf c1CexParams 0 = 0 := rfl
    rw [h1, h2, hwin]
    simp [scanStep, sliceVal, lt_irrefl]
  refine ⟨hwin, hmp, ?_, ?_⟩
  · rw [hmp]
    simp [sliceVal]
  · rw [hmp]
    decide

/-- Input flat-index decomposition of `MaxPoolBackward`: `w = index % width`. -/
def wOfIn (p : PoolParams) (index : ℕ) : ℕ := index % p.width

/-- Decomposition `h = (index / width) % height`. -/
def hOfIn (p : PoolParams) (index : ℕ) : ℕ := index / p.width % p.height

/-- Decomposition `c = (index / width / height) % channels`. -/
def cOfIn (p : PoolParams) (index : ℕ) : ℕ := index / p.width / p.height % p.channels

/-- Decomposition `n = index / width / height / channels`. -/
def nOfIn (p : PoolParams) (index : ℕ) : ℕ := index / p.width / p.height / p.channels

/-- The backward loop bound `phstart = (h + pad_h < kernel_h) ? 0 :
(h + pad_h - kernel_h) / stride_h + 1` (all quantities nonnegative where
the division is taken, so C integer division is ℕ division). -/
def phstartB (p : PoolParams) (h : ℕ) : ℕ :=
  if h + p.padH < p.kernelH then 0 else (h + p.padH - p.kernelH) / p.strideH + 1

/-- The backward loop bound `phend = min((h + pad_h) / stride_h + 1, pooled_height)`. -/
def phendB (p : PoolParams) (h : ℕ) : ℕ := min ((h + p.padH) / p.strideH + 1) p.pooledH

/-- The backward loop bound `pwstart`. -/
def pwstartB (p : PoolParams) (w : ℕ) : ℕ :=
  if w + p.padW < p.kernelW then 0 else (w + p.padW - p.kernelW) / p.strideW + 1

/-- The backward loop bound `pwend = min((w + pad_w) / stride_w + 1, pooled_width)`. -/
def pwendB (p : PoolParams) (w : ℕ) : ℕ := min ((w + p.padW) / p.strideW + 1) p.pooledW

/-- The kernel `MaxPoolBackward` at one input flat index: the accumulated
gradient `bottom_diff[index]`, the sum of `top_diff` over the output cells
`(ph, pw)` in the inverse-window range whose recorded mask equals this
cell's flat spatial index `h * width + w`.  The float accumulation is
modelled as an exact rational sum. -/
def MaxPoolBackward (p : PoolParams) (topDiff : ℕ → ℚ) (mask : ℕ → ℤ) (index : ℕ) : ℚ :=
  ∑ ph ∈ Finset.Ico (phstartB p (hOfIn p index)) (phendB p (hOfIn p index)),
    ∑ pw ∈ Finset.Ico (pwstartB p (wOfIn p index)) (pwendB p (wOfIn p index)),
      if mask ((nOfIn p index * p.channels + cOfIn p index) * (p.pooledH * p.pooledW) +
            (ph * p.pooledW + pw)) =
          ((hOfIn p index * p.width + wOfIn p index : ℕ) : ℤ)
      then topDiff ((nOfIn p index * p.channels + cOfIn p index) * (p.pooledH * p.pooledW) +
            (ph * p.pooledW + pw))
      else 0

/-- Flat index of input cell `(n, c, h, w)` in NCHW layout. -/
def inIdx (p : PoolParams) (n c h w : ℕ) : ℕ :=
  ((n * p.channels + c) * p.height + h) * p.width + w

/-- Flat index of output cell `(n, c, ph, pw)` in NCHW layout. -/
def outIdx (p : PoolParams) (n c ph pw : ℕ) : ℕ :=
  ((n * p.channels + c) * p.pooledH + ph) * p.pooledW + pw

theorem outIdx_offset (p : PoolParams) (n c ph pw : ℕ) :
    (n * p.channels + c) * (p.pooledH * p.pooledW) + (ph * p.pooledW + pw) =
      outIdx p n c ph pw := by
  unfold outIdx
  ring

/-- The mask tensor produced by running `MaxPoolForward` on `bottom` at
every output flat index. -/
def maskOf (p : PoolParams) (bottom : ℕ → ℚ) : ℕ → ℤ :=
  fun j => (MaxPoolForward p bottom j).2

/-- The input flat index `inIdx` decomposes back into `(n, c, h, w)` by the
div/mod chain used in `MaxPoolBackward`. -/
theorem pool_decomp_in (p : PoolParams) (n c h w : ℕ)
    (hc : c < p.channels) (hh : h < p.height) (hw : w < p.width) :
    wOfIn p (inIdx p n c h w) = w ∧ hOfIn p (inIdx p n c h w) = h ∧
    cOfIn p (inIdx p n c h w) = c ∧ nOfIn p (inIdx p n c h w) = n := by
  have h1 : inIdx p n c h w / p.width = (n * p.channels + c) * p.height + h :=
    flat_div _ _ _ hw
  refine ⟨flat_mod _ _ _ hw, ?_, ?_, ?_⟩
  · unfold hOfIn
    rw [h1, flat_mod _ _ _ hh]
  · unfold cOfIn
    rw [h1, flat_div _ _ _ hh, flat_mod _ _ _ hc]
  · unfold nOfIn
    rw [h1, flat_div _ _ _ hh, flat_div _ _ _ hc]

theorem mem_rangeMap_iff (s e : ℤ) (h : ℕ) :
    h ∈ (List.range (e.toNat - s.toNat)).map (fun k => s.toNat + k) ↔
      s ≤ (h : ℤ) ∧ (h : ℤ) < e := by
  simp only [List.mem_map, List.mem_range]
  constructor
  · rintro ⟨k, hk, rfl⟩
    have h1 : s.toNat ≤ s.toNat + k := Nat.le_add_right _ _
    have h2 : s.toNat + k < e.toNat := by omega
    exact ⟨Int.toNat_le.mp h1, Int.lt_toNat.mp h2⟩
  · rintro ⟨hs1, he1⟩
    have hs' : s.toNat ≤ h := Int.toNat_le.mpr hs1
    have he' : h < e.toNat := Int.lt_toNat.mpr he1
    exact ⟨h - s.toNat, by omega, by omega⟩

/-- The forward window bounds and the backward inverse-range bounds describe
the same set: for `h < size`, the window of output coordinate `ph` contains
`h` exactly when `ph` lies in the backward loop range computed from `h`. -/
theorem windowBounds_iff_range (stride kernel pad size h ph : ℕ)
    (hs : 0 < stride) (hh : h < size) :
    ((ph : ℤ) * stride - pad ≤ (h : ℤ) ∧
      (h : ℤ) < min ((ph : ℤ) * stride - pad + kernel) size) ↔
    ((if h + pad < kernel then 0 else (h + pad - kernel) / stride + 1) ≤ ph ∧
      ph < (h + pad) / stride + 1) := by
  have hA : ((ph : ℤ) * (stride : ℤ) - pad ≤ (h : ℤ)) ↔ ph * stride ≤ h + pad := by
    rw [← Nat.cast_mul]
    generalize ph * stride = q
    omega
  have hB : ((h : ℤ) < min ((ph : ℤ) * (stride : ℤ) - pad + kernel) size) ↔
      h + pad < ph * stride + kernel := by
    rw [lt_min_iff, ← Nat.cast_mul]
    generalize hq : ph * stride = q
    constructor
    · intro hx
      have := hx.1
      omega
    · intro hx
      exact ⟨by omega, by exact_mod_cast hh⟩
  rw [hA, hB]
  have hA2 : ph * stride ≤ h + pad ↔ ph < (h + pad) / stride + 1 := by
    rw [Nat.lt_succ_iff, Nat.le_div_iff_mul_le hs]
  have hB2 : h + pad < ph * stride + kernel ↔
      (if h + pad < kernel then 0 else (h + pad - kernel) / stride + 1) ≤ ph := by
    by_cases hcase : h + pad < kernel
    · rw [if_pos hcase]
      generalize ph * stride = q
      constructor
      · intro _
        exact Nat.zero_le ph
      · intro _
        omega
    · rw [if_neg hcase]
      rw [Nat.add_one_le_iff, Nat.div_lt_iff_lt_mul hs]
      generalize ph * stride = q
      omega
  rw [hA2, hB2]
  exact and_comm

/-- Row membership in the forward window equals membership of `ph` in the
backward inverse range (up to the `pooled_height` bound). -/
theorem mem_windowRows_iff_range (p : PoolParams) (hs : 0 < p.strideH) {h ph : ℕ}
    (hh : h < p.height) :
    h ∈ windowRows p ph ↔ phstartB p h ≤ ph ∧ ph < (h + p.padH) / p.strideH + 1 := by
  unfold windowRows phstartB
  rw [mem_rangeMap_iff]
  unfold hendI hstartI
  exact windowBounds_iff_range p.strideH p.kernelH p.padH p.height h ph hs hh

theorem mem_windowCols_iff_range (p : PoolParams) (hs : 0 < p.strideW) {w pw : ℕ}
    (hw : w < p.width) :
    w ∈ windowCols p pw ↔ pwstartB p w ≤ pw ∧ pw < (w + p.padW) / p.strideW + 1 := by
  unfold windowCols pwstartB
  rw [mem_rangeMap_iff]
  unfold wendI wstartI
  exact windowBounds_iff_range p.strideW p.kernelW p.padW p.width w pw hs hw

theorem mem_windowRows_lt (p : PoolParams) {h ph : ℕ} (hmem : h ∈ windowRows p ph) :
    h < p.height := by
  unfold windowRows at hmem
  rw [mem_rangeMap_iff] at hmem
  have h1 : (h : ℤ) < hendI p ph := hmem.2
  have h2 : hendI p ph ≤ (p.height : ℤ) := min_le_right _ _
  exact_mod_cast lt_of_lt_of_le h1 h2

theorem mem_windowCols_lt (p : PoolParams) {w pw : ℕ} (hmem : w ∈ windowCols p pw) :
    w < p.width := by
  unfold windowCols at hmem
  rw [mem_rangeMap_iff] at hmem
  have h1 : (w : ℤ) < wendI p pw := hmem.2
  have h2 : wendI p pw ≤ (p.width : ℤ) := min_le_right _ _
  exact_mod_cast lt_of_lt_of_le h1 h2

theorem mem_windowPairs_iff (p : PoolParams) (ph pw h w : ℕ) :
    (h, w) ∈ windowPairs p ph pw ↔ h ∈ windowRows p ph ∧ w ∈ windowCols p pw := by
  unfold windowPairs
  simp only [List.mem_flatMap, List.mem_map, Prod.mk.injEq]
  constructor
  · rintro ⟨a, ha, b, hb, rfl, rfl⟩
    exact ⟨ha, hb⟩
  · rintro ⟨ha, hb⟩
    exact ⟨h, ha, w, hb, rfl, rfl⟩

/-- The mask recorded by `MaxPoolForward` is either the sentinel `-1` or the
flat spatial index of some cell of the scanned window. -/
theorem MaxPoolForward_mask_cases (p : PoolParams) (bottom : ℕ → ℚ) (index : ℕ) :
    (MaxPoolForward p bottom index).2 = -1 ∨
      ∃ hw ∈ windowPairs p (phOf p index) (pwOf p index),
        (MaxPoolForward p bottom index).2 = ((hw.1 * p.width + hw.2 : ℕ) : ℤ) := by
  unfold MaxPoolForward
  rcases scanFold_mem_or_init
      (fun hw : ℕ × ℕ =>
        sliceVal p bottom (nOf p index) (cOf p index) (hw.1 * p.width + hw.2))
      (fun hw : ℕ × ℕ => ((hw.1 * p.width + hw.2 : ℕ) : ℤ))
      (windowPairs p (phOf p index) (pwOf p index)) (-fltMax, -1) with hcase | ⟨x, hx, hcase⟩
  · left
    rw [hcase]
  · right
    exact ⟨x, hx, by rw [hcase]⟩

/-- If the output cell `(ph, pw)` lies outside the backward inverse range of
input cell `(h, w)`, the forward-recorded mask at that output cell cannot
equal the flat index of `(h, w)`. -/
theorem mask_ne_of_outside (p : PoolParams) (bottom : ℕ → ℚ)
    (hsH : 0 < p.strideH) (hsW : 0 < p.strideW) (n c h w ph pw : ℕ)
    (hc : c < p.channels) (hh : h < p.height) (hw : w < p.width)
    (hph : ph < p.pooledH) (hpw : pw < p.pooledW)
    (hout : ¬(phstartB p h ≤ ph ∧ ph < phendB p h) ∨
            ¬(pwstartB p w ≤ pw ∧ pw < pwendB p w)) :
    maskOf p bottom (outIdx p n c ph pw) ≠ ((h * p.width + w : ℕ) : ℤ) := by
  intro heq
  obtain ⟨hpw', hph', _, _⟩ := pool_decomp p n c ph pw hc hph hpw
  rcases MaxPoolForward_mask_cases p bottom (outIdx p n c ph pw) with hm | ⟨hw2, hmem, hm⟩
  · rw [maskOf] at heq
    rw [hm] at heq
    have : (0 : ℤ) ≤ ((h * p.width + w : ℕ) : ℤ) := Int.natCast_nonneg _
    omega
  · rw [maskOf] at heq
    rw [hm] at heq
    have heqn : hw2.1 * p.width + hw2.2 = h * p.width + w := by exact_mod_cast heq
    unfold outIdx at hmem
    rw [hph', hpw'] at hmem
    have hmem' : hw2.1 ∈ windowRows p ph ∧ hw2.2 ∈ windowCols p pw := by
      rw [← mem_windowPairs_iff]
      exact hmem
    have hw2w : hw2.2 < p.width := mem_windowCols_lt p hmem'.2
    have hfst : hw2.1 = h := by
      have e1 : (hw2.1 * p.width + hw2.2) / p.width = hw2.1 := flat_div _ _ _ hw2w
      have e2 : (h * p.width + w) / p.width = h := flat_div _ _ _ hw
      rw [← e1, ← e2, heqn]
    have hsnd : hw2.2 = w := by
      rw [hfst] at heqn
      omega
    rw [hfst] at hmem'
    rw [hsnd] at hmem'
    rcases hout with hout | hout
    · have hr := (mem_windowRows_iff_range p hsH hh).mp hmem'.1
      apply hout
      refine ⟨hr.1, ?_⟩
      unfold phendB
      rw [lt_min_iff]
      exact ⟨hr.2, hph⟩
    · have hr := (mem_windowCols_iff_range p hsW hw).mp hmem'.2
      apply hout
      refine ⟨hr.1, ?_⟩
      unfold pwendB
      rw [lt_min_iff]
      exact ⟨hr.2, hpw⟩

theorem flat_inj (W a b c d : ℕ) (hb : b < W) (hd : d < W)
    (heq : a * W + b = c * W + d) : a = c ∧ b = d := by
  have hac : a = c := by
    rw [← flat_div a b W hb, heq, flat_div c d W hd]
  subst hac
  exact ⟨rfl, Nat.add_left_cancel heq⟩

/-- Claim C2 (amended): with the mask produced by `MaxPoolForward` on the
same configuration, (i) each input cell's gradient from `MaxPoolBackward`
equals the sum of `dY` over exactly those output cells of its plane whose
recorded mask equals the cell's flat index `h * width + w`; (ii) a cell
that is not a recorded argmax receives gradient zero; (iii) provided every
recorded mask is nonnegative (no output cell with an empty window or an
all-`-FLT_MAX` window), the total gradient over all input cells equals the
total upstream gradient. -/
theorem MaxPoolBackward_gradient_routing (p : PoolParams) (bottom dY : ℕ → ℚ)
    (hsH : 0 < p.strideH) (hsW : 0 < p.strideW) :
    (∀ n c h w, c < p.channels → h < p.height → w < p.width →
      MaxPoolBackward p dY (maskOf p bottom) (inIdx p n c h w) =
        ∑ ph ∈ Finset.range p.pooledH, ∑ pw ∈ Finset.range p.pooledW,
          (if maskOf p bottom (outIdx p n c ph pw) = ((h * p.width + w : ℕ) : ℤ)
           then dY (outIdx p n c ph pw) else 0)) ∧
    (∀ n c h w, c < p.channels → h < p.height → w < p.width →
      (∀ ph, ph < p.pooledH → ∀ pw, pw < p.pooledW →
        maskOf p bottom (outIdx p n c ph pw) ≠ ((h * p.width + w : ℕ) : ℤ)) →
      MaxPoolBackward p dY (maskOf p bottom) (inIdx p n c h w) = 0) ∧
    ((∀ n, n < p.num → ∀ c, c < p.channels → ∀ ph, ph < p.pooledH →
        ∀ pw, pw < p.pooledW → 0 ≤ maskOf p bottom (outIdx p n c ph pw)) →
      (∑ n ∈ Finset.range p.num, ∑ c ∈ Finset.range p.channels,
        ∑ h ∈ Finset.range p.height, ∑ w ∈ Finset.range p.width,
          MaxPoolBackward p dY (maskOf p bottom) (inIdx p n c h w)) =
      ∑ n ∈ Finset.range p.num, ∑ c ∈ Finset.range p.channels,
        ∑ ph ∈ Finset.range p.pooledH, ∑ pw ∈ Finset.range p.pooledW,
          dY (outIdx p n c ph pw)) := by
  have key : ∀ n c h w, c < p.channels → h < p.height → w < p.width →
      MaxPoolBackward p dY (maskOf p bottom) (inIdx p n c h w) =
        ∑ ph ∈ Finset.range p.pooledH, ∑ pw ∈ Finset.range p.pooledW,
          (if maskOf p bottom (outIdx p n c ph pw) = ((h * p.width + w : ℕ) : ℤ)
           then dY (outIdx p n c ph pw) else 0) := by
    intro n c h w hc hh hw
    obtain ⟨hw', hh', hc', hn'⟩ := pool_decomp_in p n c h w hc hh hw
    unfold MaxPoolBackward
    rw [hw', hh', hc', hn']
    simp only [outIdx_offset]
    have hendle1 : phendB p h ≤ p.pooledH := by
      unfold phendB
      exact min_le_right _ _
    have hendle2 : pwendB p w ≤ p.pooledW := by
      unfold pwendB
      exact min_le_right _ _
    have hsub1 : Finset.Ico (phstartB p h) (phendB p h) ⊆ Finset.range p.pooledH := by
      intro x hx
      rw [Finset.mem_range]
      exact lt_of_lt_of_le (Finset.mem_Ico.mp hx).2 hendle1
    have hsub2 : Finset.Ico (pwstartB p w) (pwendB p w) ⊆ Finset.range p.pooledW := by
      intro x hx
      rw [Finset.mem_range]
      exact lt_of_lt_of_le (Finset.mem_Ico.mp hx).2 hendle2
    calc (∑ ph ∈ Finset.Ico (phstartB p h) (phendB p h),
            ∑ pw ∈ Finset.Ico (pwstartB p w) (pwendB p w),
              (if maskOf p bottom (outIdx p n c ph pw) = ((h * p.width + w : ℕ) : ℤ)
               then dY (outIdx p n c ph pw) else 0))
        = ∑ ph ∈ Finset.Ico (phstartB p h) (phendB p h),
            ∑ pw ∈ Finset.range p.pooledW,
              (if maskOf p bottom (outIdx p n c ph pw) = ((h * p.width + w : ℕ) : ℤ)
               then dY (outIdx p n c ph pw) else 0) := by
          refine Finset.sum_congr rfl (fun ph hphm => ?_)
          have hph : ph < p.pooledH :=
            lt_of_lt_of_le (Finset.mem_Ico.mp hphm).2 hendle1
          refine Finset.sum_subset hsub2 (fun pw hpwm hpwout => ?_)
          rw [Finset.mem_Ico] at hpwout
          exact if_neg (mask_ne_of_outside p bottom hsH hsW n c h w ph pw hc hh hw
            hph (Finset.mem_range.mp hpwm) (Or.inr hpwout))
      _ = ∑ ph ∈ Finset.range p.pooledH,
            ∑ pw ∈ Finset.range p.pooledW,
              (if maskOf p bottom (outIdx p n c ph pw) = ((h * p.width + w : ℕ) : ℤ)
               then dY (outIdx p n c ph pw) else 0) := by
          refine Finset.sum_subset hsub1 (fun ph hphm hphout => ?_)
          rw [Finset.mem_Ico] at hphout
          refine Finset.sum_eq_zero (fun pw hpwm => ?_)
          exact if_neg (mask_ne_of_outside p bottom hsH hsW n c h w ph pw hc hh hw
            (Finset.mem_range.mp hphm) (Finset.mem_range.mp hpwm) (Or.inl hphout))
  refine ⟨key, ?_, ?_⟩
  · intro n c h w hc hh hw hnone
    rw [key n c h w hc hh hw]
    refine Finset.sum_eq_zero (fun ph hphm => ?_)
    refine Finset.sum_eq_zero (fun pw hpwm => ?_)
    exact if_neg (hnone ph (Finset.mem_range.mp hphm) pw (Finset.mem_range.mp hpwm))
  · intro hmask
    have eprod : ∀ (A B : ℕ) (F : ℕ → ℕ → ℚ),
        (∑ x ∈ Finset.range A, ∑ y ∈ Finset.range B, F x y) =
          ∑ z ∈ Finset.range A ×ˢ Finset.range B, F z.1 z.2 :=
      fun A B F => (Finset.sum_product' _ _ _).symm
    refine Finset.sum_congr rfl (fun n hn => ?_)
    refine Finset.sum_congr rfl (fun c hcm => ?_)
    have hc : c < p.channels := Finset.mem_range.mp hcm
    have inner : ∀ y ∈ Finset.range p.pooledH ×ˢ Finset.range p.pooledW,
        (∑ z ∈ Finset.range p.height ×ˢ Finset.range p.width,
          (if maskOf p bottom (outIdx p n c y.1 y.2) = ((z.1 * p.width + z.2 : ℕ) : ℤ)
           then dY (outIdx p n c y.1 y.2) else 0)) = dY (outIdx p n c y.1 y.2) := by
      intro y hy
      obtain ⟨hy1, hy2⟩ := Finset.mem_product.mp hy
      have hy1' : y.1 < p.pooledH := Finset.mem_range.mp hy1
      have hy2' : y.2 < p.pooledW := Finset.mem_range.mp hy2
      have h0 := hmask n (Finset.mem_range.mp hn) c hc y.1 hy1' y.2 hy2'
      rcases MaxPoolForward_mask_cases p bottom (outIdx p n c y.1 y.2) with hm |
        ⟨hw2, hmem, hm⟩
      · exfalso
        unfold maskOf at h0
        rw [hm] at h0
        omega
      · obtain ⟨hpw', hph', _, _⟩ := pool_decomp p n c y.1 y.2 hc hy1' hy2'
        unfold outIdx at hmem
        rw [hph', hpw'] at hmem
        have hmem' : hw2.1 ∈ windowRows p y.1 ∧ hw2.2 ∈ windowCols p y.2 := by
          rw [← mem_windowPairs_iff]
          exact hmem
        have hlt1 : hw2.1 < p.height := mem_windowRows_lt p hmem'.1
        have hlt2 : hw2.2 < p.width := mem_windowCols_lt p hmem'.2
        have hzmem : hw2 ∈ Finset.range p.height ×ˢ Finset.range p.width :=
          Finset.mem_product.mpr ⟨Finset.mem_range.mpr hlt1, Finset.mem_range.mpr hlt2⟩
        rw [Finset.sum_eq_single_of_mem hw2 hzmem ?vanish]
        · rw [if_pos]
          unfold maskOf
          rw [hm]
        case vanish =>
          intro b hbmem hbne
          obtain ⟨hb1, hb2⟩ := Finset.mem_product.mp hbmem
          refine if_neg (fun hcond => hbne ?_)
          unfold maskOf at hcond
          rw [hm] at hcond
          have heqn : hw2.1 * p.width + hw2.2 = b.1 * p.width + b.2 := by exact_mod_cast hcond
          obtain ⟨e1, e2⟩ :=
            flat_inj p.width hw2.1 hw2.2 b.1 b.2 hlt2 (Finset.mem_range.mp hb2) heqn
          exact Prod.ext e1.symm e2.symm
    calc (∑ h ∈ Finset.range p.height, ∑ w ∈ Finset.range p.width,
            MaxPoolBackward p dY (maskOf p bottom) (inIdx p n c h w))
        = ∑ h ∈ Finset.range p.height, ∑ w ∈ Finset.range p.width,
            ∑ ph ∈ Finset.range p.pooledH, ∑ pw ∈ Finset.range p.pooledW,
              (if maskOf p bottom (outIdx p n c ph pw) = ((h * p.width + w : ℕ) : ℤ)
               then dY (outIdx p n c ph pw) else 0) := by
          refine Finset.sum_congr rfl (fun h hhm => ?_)
          refine Finset.sum_congr rfl (fun w hwm => ?_)
          exact key n c h w hc (Finset.mem_range.mp hhm) (Finset.mem_range.mp hwm)
      _ = ∑ z ∈ Finset.range p.height ×ˢ Finset.range p.width,
            ∑ y ∈ Finset.range p.pooledH ×ˢ Finset.range p.pooledW,
              (if maskOf p bottom (outIdx p n c y.1 y.2) = ((z.1 * p.width + z.2 : ℕ) : ℤ)
               then dY (outIdx p n c y.1 y.2) else 0) := by
          rw [eprod p.height p.width]
          exact Finset.sum_congr rfl (fun z _ => eprod p.pooledH p.pooledW _)
      _ = ∑ y ∈ Finset.range p.pooledH ×ˢ Finset.range p.pooledW,
            ∑ z ∈ Finset.range p.height ×ˢ Finset.range p.width,
              (if maskOf p bottom (outIdx p n c y.1 y.2) = ((z.1 * p.width + z.2 : ℕ) : ℤ)
               then dY (outIdx p n c y.1 y.2) else 0) := Finset.sum_comm
      _ = ∑ y ∈ Finset.range p.pooledH ×ˢ Finset.range p.pooledW,
            dY (outIdx p n c y.1 y.2) := Finset.sum_congr rfl inner
      _ = ∑ ph ∈ Finset.range p.pooledH, ∑ pw ∈ Finset.range p.pooledW,
            dY (outIdx p n c ph pw) :=
          (eprod p.pooledH p.pooledW (fun ph pw => dY (outIdx p n c ph pw))).symm

/-- Concrete configuration for the C2 witness: `1 x 1 x 2 x 2` input,
`2 x 2` kernel, stride `2`, no padding, `1 x 1` output. -/
def c2Params : PoolParams := ⟨1, 1, 2, 2, 1, 1, 2, 2, 2, 2, 0, 0⟩

/-- Concrete input for the C2 witness: value `j` at flat position `j`. -/
def c2Bottom : ℕ → ℚ := fun j => (j : ℚ)

/-- Concrete upstream gradient for the C2 witness: all ones. -/
def c2dY : ℕ → ℚ := fun _ => 1

/-- Witness for C2 (amended): on a `1 x 1 x 2 x 2` input pooled by a
`2 x 2` kernel with stride `2`, the per-cell routing identity holds at
input cell `(0, 0, 0, 0)` and, all recorded masks being nonnegative, the
total input gradient equals the total upstream gradient. -/
theorem MaxPoolBackward_gradient_routing_witness :
    (MaxPoolBackward c2Params c2dY (maskOf c2Params c2Bottom) (inIdx c2Params 0 0 0 0) =
      ∑ ph ∈ Finset.range c2Params.pooledH, ∑ pw ∈ Finset.range c2Params.pooledW,
        (if maskOf c2Params c2Bottom (outIdx c2Params 0 0 ph pw) =
            ((0 * c2Params.width + 0 : ℕ) : ℤ)
         then c2dY (outIdx c2Params 0 0 ph pw) else 0)) ∧
    ((∑ n ∈ Finset.range c2Params.num, ∑ c ∈ Finset.range c2Params.channels,
        ∑ h ∈ Finset.range c2Params.height, ∑ w ∈ Finset.range c2Params.width,
          MaxPoolBackward c2Params c2dY (maskOf c2Params c2Bottom) (inIdx c2Params n c h w)) =
      ∑ n ∈ Finset.range c2Params.num, ∑ c ∈ Finset.range c2Params.channels,
        ∑ ph ∈ Finset.range c2Params.pooledH, ∑ pw ∈ Finset.range c2Params.pooledW,
          c2dY (outIdx c2Params n c ph pw)) := by
  have h := MaxPoolBackward_gradient_routing c2Params c2Bottom c2dY (by decide) (by decide)
  refine ⟨h.1 0 0 0 0 (by decide) (by decide) (by decide), h.2.2 ?_⟩
  intro n hn c hc ph hph pw hpw
  have e1 : c2Params.num = 1 := rfl
  have e2 : c2Params.channels = 1 := rfl
  have e3 : c2Params.pooledH = 1 := rfl
  have e4 : c2Params.pooledW = 1 := rfl
  rw [e1] at hn
  rw [e2] at hc
  rw [e3] at hph
  rw [e4] at hpw
  have hn0 : n = 0 := by omega
  have hc0 : c = 0 := by omega
  have hph0 : ph = 0 := by omega
  have hpw0 : pw = 0 := by omega
  subst hn0
  subst hc0
  subst hph0
  subst hpw0
  decide

/-- Concrete configuration for the C2 counterexample: `1 x 1 x 1 x 1`
input, `1 x 1` kernel, stride `1`, pad `1`, `3 x 3` output.  Eight of the
nine output cells have empty clamped windows (mask `-1`). -/
def c2CexParams : PoolParams := ⟨1, 1, 1, 1, 3, 3, 1, 1, 1, 1, 1, 1⟩

/-- Counterexample to the conservation part of C2 as stated: with the mask
produced by the forward pass on a `1 x 1 x 1 x 1` input with `1 x 1`
kernel, stride `1` and pad `1`, and an all-ones upstream gradient over the
`3 x 3` output, the total gradient over all input cells is `1`, while the
sum of all upstream gradient values is `9`. -/
theorem MaxPoolBackward_conservation_cex :
    (∑ n ∈ Finset.range 1, ∑ c ∈ Finset.range 1,
      ∑ h ∈ Finset.range 1, ∑ w ∈ Finset.range 1,
        MaxPoolBackward c2CexParams (fun _ => 1) (maskOf c2CexParams (fun _ => 1))
          (inIdx c2CexParams n c h w)) = 1 ∧
    (∑ n ∈ Finset.range 1, ∑ c ∈ Finset.range 1,
      ∑ ph ∈ Finset.range 3, ∑ pw ∈ Finset.range 3,
        (fun _ => (1 : ℚ)) (outIdx c2CexParams n c ph pw)) = 9 ∧
    (1 : ℚ) ≠ 9 := by
  refine ⟨?_, ?_, by norm_num⟩
  · rw [Finset.sum_range_one, Finset.sum_range_one, Finset.sum_range_one,
      Finset.sum_range_one]
    unfold MaxPoolBackward
    have hIco1 : Finset.Ico (phstartB c2CexParams (hOfIn c2CexParams (inIdx c2CexParams 0 0 0 0)))
        (phendB c2CexParams (hOfIn c2CexParams (inIdx c2CexParams 0 0 0 0))) = {1} := by decide
    have hIco2 : Finset.Ico (pwstartB c2CexParams (wOfIn c2CexParams (inIdx c2CexParams 0 0 0 0)))
        (pwendB c2CexParams (wOfIn c2CexParams (inIdx c2CexParams 0 0 0 0))) = {1} := by decide
    rw [hIco1, hIco2, Finset.sum_singleton, Finset.sum_singleton]
    rw [if_pos (by decide)]
  · simp only [Finset.sum_range_one, Finset.sum_range_succ, Finset.sum_range_zero]
    norm_num

/-- Claim C10: in `MaxPoolForward`, an output cell whose clamped window is
empty (possible when the window lies entirely inside the padding region)
produces the value `-FLT_MAX` and the mask `-1`, and `-1` differs from the
flat spatial index `h * width + w` of every input cell, so the backward
kernel routes no gradient from such a cell. -/
theorem maxpool_empty_window_sentinel (p : PoolParams) (bottom : ℕ → ℚ) (index : ℕ)
    (hempty : windowPairs p (phOf p index) (pwOf p index) = []) :
    MaxPoolForward p bottom index = (-fltMax, -1) ∧
      ∀ h w : ℕ, ((h * p.width + w : ℕ) : ℤ) ≠ -1 := by
  constructor
  · unfold MaxPoolForward
    rw [hempty]
    rfl
  · intro h w
    have : (0 : ℤ) ≤ ((h * p.width + w : ℕ) : ℤ) := Int.natCast_nonneg _
    omega

/-- Witness for C10: pooling a `1 x 1 x 1 x 1` input with a `1 x 1` kernel,
stride `1` and pad `1` gives the output cell `(ph, pw) = (0, 0)` an empty
clamped window, so it outputs `-FLT_MAX` with mask `-1`. -/
theorem maxpool_empty_window_sentinel_witness :
    windowPairs (⟨1, 1, 1, 1, 3, 3, 1, 1, 1, 1, 1, 1⟩ : PoolParams) 0 0 = [] ∧
      MaxPoolForward (⟨1, 1, 1, 1, 3, 3, 1, 1, 1, 1, 1, 1⟩ : PoolParams)
        (fun _ => 5) 0 = (-fltMax, -1) :=
  ⟨by decide,
   (maxpool_empty_window_sentinel
      (⟨1, 1, 1, 1, 3, 3, 1, 1, 1, 1, 1, 1⟩ : PoolParams)
      (fun _ => 5) 0 (by decide)).1⟩

/-! Host-side dispatch of the max-pooling operators (rank and element-type
checks of `max_pool_with_index_hip.cc`). -/

/-- Element types dispatched by the pooling operators; `f64` and `i32`
stand in for element types other than `float` and `float16`. -/
inductive CDataType
  | f32
  | f16
  | f64
  | i32
deriving DecidableEq

/-- Tensor metadata visible to the host-side dispatch code. -/
structure TensorMeta where
  dtype : CDataType
  dims : List ℕ
deriving DecidableEq

/-- Host dispatch of `MaxPoolWithIndexOp::RunOnDevice`: first
`CAFFE_ENFORCE(X.ndim() == 4, "Operator only supports 4D tensors")`, then
the type dispatch, with `CAFFE_THROW("Unsupported input type")` on
fallthrough; a successful dispatch is `.ok`. -/
def maxPoolWithIndexRun (X : TensorMeta) : Except String Unit :=
  if X.dims.length = 4 then
    if X.dtype = CDataType.f32 ∨ X.dtype = CDataType.f16 then Except.ok ()
    else Except.error "Unsupported input type"
  else Except.error "Operator only supports 4D tensors"

/-- Host dispatch of `MaxPoolWithIndexGradientOp::RunOnDevice`: the element
type is dispatched first; the rank check
`CAFFE_ENFORCE(X.ndim() == 4, ...)` sits inside `DoRunWithType`. -/
def maxPoolWithIndexGradientRun (X : TensorMeta) : Except String Unit :=
  if X.dtype = CDataType.f32 ∨ X.dtype = CDataType.f16 then
    if X.dims.length = 4 then Except.ok ()
    else Except.error "Operator only supports 4D tensors"
  else Except.error "Unsupported input type"

/-- Claim C7 (amended): the forward operator rejects any non-4D input with
the rank error and any 4D input of unsupported element type with the type
error; the gradient operator dispatches on the element type first, so it
rejects any input of unsupported type (whatever its rank) with the type
error and any non-4D input of supported type with the rank error; neither
operator succeeds unless the rank is 4 and the type is float or float16,
so no partial output is produced on a rejected input. -/
theorem maxPoolWithIndex_rank_type_errors (X : TensorMeta) :
    (X.dims.length ≠ 4 →
      maxPoolWithIndexRun X = Except.error "Operator only supports 4D tensors") ∧
    (X.dims.length = 4 → X.dtype ≠ CDataType.f32 → X.dtype ≠ CDataType.f16 →
      maxPoolWithIndexRun X = Except.error "Unsupported input type") ∧
    (X.dtype ≠ CDataType.f32 → X.dtype ≠ CDataType.f16 →
      maxPoolWithIndexGradientRun X = Except.error "Unsupported input type") ∧
    ((X.dtype = CDataType.f32 ∨ X.dtype = CDataType.f16) → X.dims.length ≠ 4 →
      maxPoolWithIndexGradientRun X = Except.error "Operator only supports 4D tensors") ∧
    (maxPoolWithIndexRun X = Except.ok () ↔
      X.dims.length = 4 ∧ (X.dtype = CDataType.f32 ∨ X.dtype = CDataType.f16)) ∧
    (maxPoolWithIndexGradientRun X = Except.ok () ↔
      X.dims.length = 4 ∧ (X.dtype = CDataType.f32 ∨ X.dtype = CDataType.f16)) := by
  unfold maxPoolWithIndexRun maxPoolWithIndexGradientRun
  by_cases h1 : X.dims.length = 4 <;>
    by_cases h2 : X.dtype = CDataType.f32 ∨ X.dtype = CDataType.f16 <;>
      simp [h1, h2] <;> tauto

/-- Witness for C7 (amended): a rank-3 float input is rejected by the
forward operator with the rank error, and a 4D float input passes the
gradient operator's dispatch. -/
theorem maxPoolWithIndex_rank_type_errors_witness :
    maxPoolWithIndexRun ⟨CDataType.f32, [1, 2, 3]⟩ =
      Except.error "Operator only supports 4D tensors" ∧
    maxPoolWithIndexGradientRun ⟨CDataType.f32, [1, 1, 4, 4]⟩ = Except.ok () :=
  ⟨(maxPoolWithIndex_rank_type_errors ⟨CDataType.f32, [1, 2, 3]⟩).1 (by decide),
   ((maxPoolWithIndex_rank_type_errors ⟨CDataType.f32, [1, 1, 4, 4]⟩).2.2.2.2.2).mpr
     (by decide)⟩

/-- Counterexample to C7 as stated: the gradient operator checks the
element type before the rank, so a rank-3 input of type double is rejected
with "Unsupported input type", not with the "Operator only supports 4D
tensors" rank error the claim promises for every non-4D input. -/
theorem maxPoolWithIndexGradient_rank_error_cex :
    ([1, 2, 3] : List ℕ).length ≠ 4 ∧
    maxPoolWithIndexGradientRun ⟨CDataType.f64, [1, 2, 3]⟩ =
      Except.error "Unsupported input type" ∧
    maxPoolWithIndexGradientRun ⟨CDataType.f64, [1, 2, 3]⟩ ≠
      Except.error "Operator only supports 4D tensors" := by
  refine ⟨by decide, rfl, fun h => ?_⟩
  have h2 : "Unsupported input type" = "Operator only supports 4D tensors" :=
    Except.error.inj (rfl.trans h)
  exact absurd h2 (by decide)

/-! Distance and similarity operators (`distance_op_hip.cc`). -/

/-- The constant `kEps = 1e-12` of `L1DistanceGradientKernel` and the
cosine-similarity operators. -/
def kEps : ℚ := 1 / 1000000000000

/-- Per-row reduction of `DotProductKernel`: the block-wide sum of
`X[i*D+j] * Y[i*D+j]` over `j < D`, as an exact rational sum. -/
def DotProductKernel (D : ℕ) (X Y : ℕ → ℚ) (i : ℕ) : ℚ :=
  ∑ j ∈ Finset.range D, X (i * D + j) * Y (i * D + j)

/-- Per-row reduction of `SquaredL2DistanceKernel`: the block-wide sum of
squared differences, divided by `2.0`. -/
def SquaredL2DistanceKernel (D : ℕ) (X Y : ℕ → ℚ) (i : ℕ) : ℚ :=
  (∑ j ∈ Finset.range D, (X (i * D + j) - Y (i * D + j)) * (X (i * D + j) - Y (i * D + j))) / 2

/-- Per-row reduction of `L1DistanceKernel`: the block-wide sum of absolute
differences. -/
def L1DistanceKernel (D : ℕ) (X Y : ℕ → ℚ) (i : ℕ) : ℚ :=
  ∑ j ∈ Finset.range D, |X (i * D + j) - Y (i * D + j)|

/-- `L1DistanceGradientKernel` at one flat element index `i` (row
`k = i / D`): returns the pair `(dX[i], dY[i])`. -/
def L1DistanceGradientKernel (D : ℕ) (X Y dDistance : ℕ → ℚ) (i : ℕ) : ℚ × ℚ :=
  if X i - Y i < -kEps then (-(dDistance (i / D)), dDistance (i / D))
  else if X i - Y i > kEps then (dDistance (i / D), -(dDistance (i / D)))
  else (0, 0)

/-- Claim C8: the L1 distance gradient is the per-element sign of `X - Y`
scaled by the row's upstream gradient, with `dY` the negation of `dX`, and
a flat zero-gradient region where `|X[i] - Y[i]| <= 1e-12`. -/
theorem L1DistanceGradient_sign_rule (D : ℕ) (X Y dDistance : ℕ → ℚ) (i : ℕ) :
    (X i - Y i > kEps →
      L1DistanceGradientKernel D X Y dDistance i =
        (dDistance (i / D), -(dDistance (i / D)))) ∧
    (X i - Y i < -kEps →
      L1DistanceGradientKernel D X Y dDistance i =
        (-(dDistance (i / D)), dDistance (i / D))) ∧
    (|X i - Y i| ≤ kEps → L1DistanceGradientKernel D X Y dDistance i = (0, 0)) := by
  have hk : 0 < kEps := by norm_num [kEps]
  unfold L1DistanceGradientKernel
  refine ⟨?_, ?_, ?_⟩
  · intro h
    rw [if_neg (by push_neg; linarith), if_pos h]
  · intro h
    rw [if_pos h]
  · intro h
    rw [abs_le] at h
    rw [if_neg (by push_neg; linarith [h.1]), if_neg (by push_neg; linarith [h.2])]

/-- Concrete inputs for the C8 witness. -/
def c8X : ℕ → ℚ := fun _ => 1

/-- Concrete second input for the C8 witness. -/
def c8Y : ℕ → ℚ := fun _ => 0

/-- Concrete upstream gradient for the C8 witness. -/
def c8dD : ℕ → ℚ := fun _ => 5

/-- Witness for C8: with `X - Y = 1 > 1e-12` the gradient pair is
`(dDistance[k], -dDistance[k])`. -/
theorem L1DistanceGradient_sign_rule_witness :
    c8X 0 - c8Y 0 > kEps ∧
    L1DistanceGradientKernel 2 c8X c8Y c8dD 0 = (c8dD (0 / 2), -(c8dD (0 / 2))) := by
  have h : c8X 0 - c8Y 0 > kEps := by norm_num [c8X, c8Y, kEps]
  exact ⟨h, (L1DistanceGradient_sign_rule 2 c8X c8Y c8dD 0).1 h⟩

/-- Modelled from the spec: `math::Maximum(N, kEps, x, y)` of the
framework's math library (outside `src/`) writes the elementwise maximum of
`x[i]` with the scalar `kEps` — the epsilon clamp of section 4.3 of the
spec. -/
def mathMaximum (eps v : ℚ) : ℚ := max eps v

/-- `CosineSimilarityOp<float, HIPContext>::RunOnDevice` per batch row,
with the framework's `math::InvSqrt` (outside `src/`, modelled from the
spec as the inverse square root) abstracted as the argument `invSqrt`:
three dot-product reductions, the clamps `Maximum(N, kEps, x2, x2)` and
`Maximum(N, kEps, y2, y2)` applied to the SQUARED norms, then
`result = dot * InvSqrt(x2 * y2)`. -/
def CosineSimilarityRow (invSqrt : ℚ → ℚ) (D : ℕ) (X Y : ℕ → ℚ) (i : ℕ) : ℚ :=
  DotProductKernel D X Y i *
    invSqrt (mathMaximum kEps (DotProductKernel D X X i) *
      mathMaximum kEps (DotProductKernel D Y Y i))

/-- The formula claimed by the spec (for comparison with the code):
`dot(X, Y) / (max(normX, eps) * max(normY, eps))` with the clamp applied
to each NORM. -/
def CosineSimilaritySpecRow (normX normY : ℚ) (D : ℕ) (X Y : ℕ → ℚ) (i : ℕ) : ℚ :=
  DotProductKernel D X Y i / (max normX kEps * max normY kEps)

/-- Claim C3 (amended): per batch row, the code clamps the SQUARED norms at
`kEps = 1e-12` (so the effective clamp on each norm is at `1e-6`, not
`1e-12`), and the result is `dot(X, Y) / sqrt(max(dot(X,X), eps) *
max(dot(Y,Y), eps))`: whenever `invSqrt` returns the true inverse square
root of the clamped product, the squared result times the clamped product
equals the squared dot product, with the sign of the dot product. -/
theorem CosineSimilarity_clamped_squared_norms (invSqrt : ℚ → ℚ) (D : ℕ)
    (X Y : ℕ → ℚ) (i : ℕ)
    (hinv : invSqrt (mathMaximum kEps (DotProductKernel D X X i) *
          mathMaximum kEps (DotProductKernel D Y Y i)) *
        invSqrt (mathMaximum kEps (DotProductKernel D X X i) *
          mathMaximum kEps (DotProductKernel D Y Y i)) *
        (mathMaximum kEps (DotProductKernel D X X i) *
          mathMaximum kEps (DotProductKernel D Y Y i)) = 1) :
    CosineSimilarityRow invSqrt D X Y i ^ 2 *
        (mathMaximum kEps (DotProductKernel D X X i) *
          mathMaximum kEps (DotProductKernel D Y Y i)) =
      DotProductKernel D X Y i ^ 2 ∧
    (0 ≤ invSqrt (mathMaximum kEps (DotProductKernel D X X i) *
        mathMaximum kEps (DotProductKernel D Y Y i)) →
      0 ≤ CosineSimilarityRow invSqrt D X Y i * DotProductKernel D X Y i) := by
  constructor
  · unfold CosineSimilarityRow
    calc (DotProductKernel D X Y i *
            invSqrt (mathMaximum kEps (DotProductKernel D X X i) *
              mathMaximum kEps (DotProductKernel D Y Y i))) ^ 2 *
            (mathMaximum kEps (DotProductKernel D X X i) *
              mathMaximum kEps (DotProductKernel D Y Y i))
        = DotProductKernel D X Y i ^ 2 *
            (invSqrt (mathMaximum kEps (DotProductKernel D X X i) *
                mathMaximum kEps (DotProductKernel D Y Y i)) *
              invSqrt (mathMaximum kEps (DotProductKernel D X X i) *
                mathMaximum kEps (DotProductKernel D Y Y i)) *
              (mathMaximum kEps (DotProductKernel D X X i) *
                mathMaximum kEps (DotProductKernel D Y Y i))) := by ring
      _ = DotProductKernel D X Y i ^ 2 := by rw [hinv]; ring
  · intro hpos
    unfold CosineSimilarityRow
    have h2 : 0 ≤ DotProductKernel D X Y i * DotProductKernel D X Y i :=
      mul_self_nonneg _
    calc (0 : ℚ) ≤ DotProductKernel D X Y i * DotProductKernel D X Y i *
          invSqrt (mathMaximum kEps (DotProductKernel D X X i) *
            mathMaximum kEps (DotProductKernel D Y Y i)) := mul_nonneg h2 hpos
      _ = DotProductKernel D X Y i *
            invSqrt (mathMaximum kEps (DotProductKernel D X X i) *
              mathMaximum kEps (DotProductKernel D Y Y i)) *
            DotProductKernel D X Y i := by ring

/-- Concrete first input for the C3 witness: the single value `2`. -/
def c3wX : ℕ → ℚ := fun _ => 2

/-- Concrete second input for the C3 witness: the single value `1`. -/
def c3wY : ℕ → ℚ := fun _ => 1

/-- Witness for C3 (amended): with `D = 1`, `X = [2]`, `Y = [1]` the
clamped product is `4`, and `invSqrt = 1/2` is its true inverse square
root, so the amended identity holds. -/
theorem CosineSimilarity_clamped_squared_norms_witness :
    CosineSimilarityRow (fun _ => 1 / 2) 1 c3wX c3wY 0 ^ 2 *
        (mathMaximum kEps (DotProductKernel 1 c3wX c3wX 0) *
          mathMaximum kEps (DotProductKernel 1 c3wY c3wY 0)) =
      DotProductKernel 1 c3wX c3wY 0 ^ 2 ∧
    (0 ≤ (fun _ : ℚ => (1 : ℚ) / 2) (mathMaximum kEps (DotProductKernel 1 c3wX c3wX 0) *
        mathMaximum kEps (DotProductKernel 1 c3wY c3wY 0)) →
      0 ≤ CosineSimilarityRow (fun _ => 1 / 2) 1 c3wX c3wY 0 *
        DotProductKernel 1 c3wX c3wY 0) :=
  CosineSimilarity_clamped_squared_norms (fun _ => 1 / 2) 1 c3wX c3wY 0
    (by norm_num [mathMaximum, DotProductKernel, kEps, c3wX, c3wY])

/-- Concrete first input for the C3 counterexample: the single value
`1e-9`, whose squared norm `1e-18` falls below `kEps = 1e-12`. -/
def c3X : ℕ → ℚ := fun _ => 1 / 1000000000

/-- Concrete second input for the C3 counterexample: the single value `1`. -/
def c3Y : ℕ → ℚ := fun _ => 1

/-- Counterexample to C3 as stated: for `X = [1e-9]`, `Y = [1]` the code
clamps the squared norm `1e-18` up to `1e-12` and returns
`1e-9 * invSqrt(1e-12) = 1e-3`, while the claimed formula
`dot / (max(normX, eps) * max(normY, eps))` with the exact norms
`normX = 1e-9`, `normY = 1` yields `1`.  The constant `1e6` passed for
`invSqrt` is the true inverse square root of the clamped product `1e-12`. -/
theorem CosineSimilarity_norm_clamp_cex :
    (mathMaximum kEps (DotProductKernel 1 c3X c3X 0) *
      mathMaximum kEps (DotProductKernel 1 c3Y c3Y 0)) = kEps ∧
    (1000000 : ℚ) * 1000000 * kEps = 1 ∧
    (1 / 1000000000 : ℚ) * (1 / 1000000000) = DotProductKernel 1 c3X c3X 0 ∧
    (1 : ℚ) * 1 = DotProductKernel 1 c3Y c3Y 0 ∧
    CosineSimilarityRow (fun _ => 1000000) 1 c3X c3Y 0 = 1 / 1000 ∧
    CosineSimilaritySpecRow (1 / 1000000000) 1 1 c3X c3Y 0 = 1 ∧
    (1 / 1000 : ℚ) ≠ 1 := by
  refine ⟨?_, ?_, ?_, ?_, ?_, ?_, ?_⟩ <;>
    norm_num [mathMaximum, DotProductKernel, CosineSimilarityRow,
      CosineSimilaritySpecRow, kEps, c3X, c3Y]

/-! Host-side `N`/`D` computation of the distance operators (claim C4).
`X.size()` is the product of the dimensions; a C++ integer division by zero
is modelled as `none`. -/

/-- `SquaredL2DistanceOp<float, HIPContext>::RunOnDevice` computes
`N = X.ndim() > 0 ? X.dim32(0) : 1` and then, UNGUARDED,
`D = X.size() / N`: division by zero when the leading dimension is `0`. -/
def squaredL2DistanceND (dims : List ℕ) : Option (ℕ × ℕ) :=
  let N := if 0 < dims.length then dims.headD 0 else 1
  if N = 0 then none else some (N, dims.prod / N)

/-- `L1DistanceOp<float, HIPContext>::RunOnDevice` guards the division:
`D = N > 0 ? X.size() / N : 0`. -/
def l1DistanceND (dims : List ℕ) : Option (ℕ × ℕ) :=
  let N := if 0 < dims.length then dims.headD 0 else 1
  some (N, if 0 < N then dims.prod / N else 0)

/-- `DotProductOp<float, HIPContext>::RunOnDevice` branches on
`X.size() > 0`, setting `N = D = 0` for empty inputs. -/
def dotProductND (dims : List ℕ) : Option (ℕ × ℕ) :=
  if 0 < dims.prod then
    let N := if 0 < dims.length then dims.headD 0 else 1
    if N = 0 then none else some (N, dims.prod / N)
  else some (0, 0)

/-- `CosineSimilarityOp<float, HIPContext>::RunOnDevice` uses
`D = X.size_from_dim(1)` (the product of the dimensions after the first) —
no division at all. -/
def cosineSimilarityND (dims : List ℕ) : ℕ × ℕ :=
  (if 0 < dims.length then dims.headD 0 else 1, (dims.drop 1).prod)

/-- The row-indexed kernels produce one output scalar per batch row; with
`N = 0` the launch covers no rows and the output is the empty list. -/
def distanceOutput (N : ℕ) (row : ℕ → ℚ) : List ℚ :=
  (List.range N).map row

/-- Claim C4 (evaluated at the failing input, status `code_bug`): on a
tensor of shape `(0,)`, `SquaredL2Distance` reaches `D = X.size() / N`
with `N = 0` — an integer division by zero (modelled `none`) — while its
siblings `L1Distance`, `DotProduct` and `CosineSimilarity` all
short-circuit as the claim describes, producing a length-0 output with
zero-sized loops. -/
theorem distance_ops_empty_batch :
    squaredL2DistanceND [0] = none ∧
    l1DistanceND [0] = some (0, 0) ∧
    dotProductND [0] = some (0, 0) ∧
    cosineSimilarityND [0] = (0, 1) ∧
    distanceOutput 0 (SquaredL2DistanceKernel 0 (fun _ => 0) (fun _ => 0)) = [] ∧
    distanceOutput 0 (L1DistanceKernel 0 (fun _ => 0) (fun _ => 0)) = [] ∧
    distanceOutput 0 (DotProductKernel 0 (fun _ => 0) (fun _ => 0)) = [] ∧
    distanceOutput 0 (CosineSimilarityRow (fun _ => 0) 0 (fun _ => 0) (fun _ => 0)) = [] :=
  ⟨rfl, rfl, rfl, rfl, rfl, rfl, rfl, rfl⟩

/-! Image padding (`pad_op_hip.cc`). -/

/-- The reflect transform of `PadImageReflectNCHW`/`NHWC`:
`h = ph - pad; h = max(h, -h); h = min(h, 2 * size - h - 2)`, C `int`
arithmetic modelled on ℤ. -/
def reflectIdx (pad size ph : ℕ) : ℤ :=
  min (max ((ph : ℤ) - pad) (-((ph : ℤ) - pad)))
    (2 * (size : ℤ) - max ((ph : ℤ) - pad) (-((ph : ℤ) - pad)) - 2)

/-- `PadImageReflectNCHW` at one output flat index: decompose
`(nc, ph, pw)` by the kernel's div/mod chain, reflect both spatial
coordinates, and read `bottom_data[(nc * height + h) * width + w]` (the
read offset on ℤ, since the C index arithmetic can leave the tensor when a
pad reaches the dimension size). -/
def PadImageReflectNCHW (height width paddedH paddedW padT padL : ℕ)
    (bottom : ℤ → ℚ) (index : ℕ) : ℚ :=
  bottom ((((index / paddedW / paddedH : ℕ) : ℤ) * height +
      reflectIdx padT height (index / paddedW % paddedH)) * width +
    reflectIdx padL width (index % paddedW))

/-- `PadImageReflectNHWC` at one output flat index. -/
def PadImageReflectNHWC (height width channels paddedH paddedW padT padL : ℕ)
    (bottom : ℤ → ℚ) (index : ℕ) : ℚ :=
  bottom (((((index / channels / paddedW / paddedH : ℕ) : ℤ) * height +
        reflectIdx padT height (index / channels / paddedW % paddedH)) * width +
      reflectIdx padL width (index / channels % paddedW)) * channels +
    ((index % channels : ℕ) : ℤ))

/-- The reflected coordinate stays inside `[0, size)` whenever both pads on
that dimension are smaller than the dimension. -/
theorem reflectIdx_bounds (pad padO size x : ℕ) (hp : pad < size) (hpO : padO < size)
    (hx : x < size + pad + padO) :
    0 ≤ reflectIdx pad size x ∧ reflectIdx pad size x < size := by
  unfold reflectIdx
  simp only [max_def, min_def]
  split <;> split <;> omega

/-- An in-range coordinate is left unchanged by the reflect transform. -/
theorem reflectIdx_interior (pad size h : ℕ) (hh : h < size) :
    reflectIdx pad size (h + pad) = h := by
  unfold reflectIdx
  simp only [max_def, min_def]
  split <;> split <;> omega

/-- Claim C5: for reflect-mode padding with every pad amount strictly less
than its dimension, the output element at padded coordinate `(ph, pw)`
equals the input element at the coordinates produced by the reflection
transform `h = min(max(ph - pad_t, -(ph - pad_t)), 2*height - |..| - 2)`
(and symmetrically for the width), in both NCHW and NHWC layouts; the
reflected coordinates always land inside the input bounds. -/
theorem PadImageReflect_maps_reflected_coords
    (channels height width padT padB padL padR : ℕ) (bottom : ℤ → ℚ)
    (n c ph pw : ℕ)
    (hpt : padT < height) (hpb : padB < height) (hpl : padL < width) (hpr : padR < width)
    (hc : c < channels) (hph : ph < height + padT + padB)
    (hpw : pw < width + padL + padR) :
    (0 ≤ reflectIdx padT height ph ∧ reflectIdx padT height ph < height ∧
     0 ≤ reflectIdx padL width pw ∧ reflectIdx padL width pw < width) ∧
    PadImageReflectNCHW height width (height + padT + padB) (width + padL + padR)
        padT padL bottom
        (((n * channels + c) * (height + padT + padB) + ph) * (width + padL + padR) + pw) =
      bottom ((((n * channels + c : ℕ) : ℤ) * height + reflectIdx padT height ph) * width +
        reflectIdx padL width pw) ∧
    PadImageReflectNHWC height width channels (height + padT + padB) (width + padL + padR)
        padT padL bottom
        (((n * (height + padT + padB) + ph) * (width + padL + padR) + pw) * channels + c) =
      bottom (((((n : ℕ) : ℤ) * height + reflectIdx padT height ph) * width +
          reflectIdx padL width pw) * channels + ((c : ℕ) : ℤ)) := by
  refine ⟨?_, ?_, ?_⟩
  · obtain ⟨b1, b2⟩ := reflectIdx_bounds padT padB height ph hpt hpb hph
    obtain ⟨b3, b4⟩ := reflectIdx_bounds padL padR width pw hpl hpr hpw
    exact ⟨b1, b2, b3, b4⟩
  · have d1 : (((n * channels + c) * (height + padT + padB) + ph) *
        (width + padL + padR) + pw) / (width + padL + padR) =
        (n * channels + c) * (height + padT + padB) + ph := flat_div _ _ _ hpw
    have d2 : (((n * channels + c) * (height + padT + padB) + ph) *
        (width + padL + padR) + pw) % (width + padL + padR) = pw := flat_mod _ _ _ hpw
    have d3 : ((n * channels + c) * (height + padT + padB) + ph) /
        (height + padT + padB) = n * channels + c := flat_div _ _ _ hph
    have d4 : ((n * channels + c) * (height + padT + padB) + ph) %
        (height + padT + padB) = ph := flat_mod _ _ _ hph
    unfold PadImageReflectNCHW
    rw [d1, d2, d3, d4]
  · have e1 : (((n * (height + padT + padB) + ph) * (width + padL + padR) + pw) *
        channels + c) / channels =
        (n * (height + padT + padB) + ph) * (width + padL + padR) + pw := flat_div _ _ _ hc
    have e2 : (((n * (height + padT + padB) + ph) * (width + padL + padR) + pw) *
        channels + c) % channels = c := flat_mod _ _ _ hc
    have e3 : ((n * (height + padT + padB) + ph) * (width + padL + padR) + pw) /
        (width + padL + padR) = n * (height + padT + padB) + ph := flat_div _ _ _ hpw
    have e4 : ((n * (height + padT + padB) + ph) * (width + padL + padR) + pw) %
        (width + padL + padR) = pw := flat_mod _ _ _ hpw
    have e5 : (n * (height + padT + padB) + ph) / (height + padT + padB) = n :=
      flat_div _ _ _ hph
    have e6 : (n * (height + padT + padB) + ph) % (height + padT + padB) = ph :=
      flat_mod _ _ _ hph
    unfold PadImageReflectNHWC
    rw [e1, e2, e3, e4, e5, e6]

/-- Concrete input for the C5 witness. -/
def c5Bottom : ℤ → ℚ := fun z => (z : ℚ)

/-- Witness for C5: a `1 x 1 x 2 x 2` input padded by `1` on every side in
reflect mode, at padded coordinate `(0, 0)`, reads the reflected in-bounds
input coordinate `(1, 1)`. -/
theorem PadImageReflect_maps_reflected_coords_witness :
    (0 ≤ reflectIdx 1 2 0 ∧ reflectIdx 1 2 0 < 2 ∧
     0 ≤ reflectIdx 1 2 0 ∧ reflectIdx 1 2 0 < 2) ∧
    PadImageReflectNCHW 2 2 (2 + 1 + 1) (2 + 1 + 1) 1 1 c5Bottom
        (((0 * 1 + 0) * (2 + 1 + 1) + 0) * (2 + 1 + 1) + 0) =
      c5Bottom ((((0 * 1 + 0 : ℕ) : ℤ) * 2 + reflectIdx 1 2 0) * 2 + reflectIdx 1 2 0) ∧
    PadImageReflectNHWC 2 2 1 (2 + 1 + 1) (2 + 1 + 1) 1 1 c5Bottom
        (((0 * (2 + 1 + 1) + 0) * (2 + 1 + 1) + 0) * 1 + 0) =
      c5Bottom (((((0 : ℕ) : ℤ) * 2 + reflectIdx 1 2 0) * 2 +
          reflectIdx 1 2 0) * 1 + ((0 : ℕ) : ℤ)) :=
  PadImageReflect_maps_reflected_coords 1 2 2 1 1 1 1 c5Bottom 0 0 0 0
    (by decide) (by decide) (by decide) (by decide) (by decide) (by decide) (by decide)

/-- The edge clamp `min(size - 1, max(x - pad, 0))` of the edge-mode
kernels (ℕ truncated subtraction is exactly the C `max(x - pad, 0)`). -/
def clampIdx (pad size x : ℕ) : ℕ := min (size - 1) (x - pad)

theorem clampIdx_lt (pad size x : ℕ) (h0 : 0 < size) : clampIdx pad size x < size := by
  unfold clampIdx
  simp only [min_def]
  split <;> omega

theorem clampIdx_interior (pad size h : ℕ) (hh : h < size) :
    clampIdx pad size (h + pad) = h := by
  unfold clampIdx
  simp only [min_def]
  split <;> omega

/-- `PadImageGradientConstNCHW` at one input flat index: a direct gather
`bottom_diff[index] = top_diff[(nc * padded_height + (h + pad_t)) *
padded_width + (w + pad_l)]`. -/
def PadImageGradientConstNCHW (height width paddedH paddedW padT padL : ℕ)
    (topDiff : ℕ → ℚ) (index : ℕ) : ℚ :=
  topDiff ((index / width / height * paddedH + (index / width % height + padT)) * paddedW +
    (index % width + padL))

/-- The input cell written by `PadImageGradientReflectNCHW` for padded
index `index`: `(nc * height + h) * width + w` after reflection (on ℤ, as
the write can leave the buffer when a pad reaches the dimension size). -/
def reflectTargetNCHW (height width paddedH paddedW padT padL : ℕ) (index : ℕ) : ℤ :=
  (((index / paddedW / paddedH : ℕ) : ℤ) * height +
      reflectIdx padT height (index / paddedW % paddedH)) * width +
    reflectIdx padL width (index % paddedW)

/-- The input cell written by `PadImageGradientEdgeNCHW` for padded index
`index` (always in bounds, so on ℕ). -/
def edgeTargetNCHW (height width paddedH paddedW padT padL : ℕ) (index : ℕ) : ℕ :=
  (index / paddedW / paddedH * height + clampIdx padT height (index / paddedW % paddedH)) *
      width +
    clampIdx padL width (index % paddedW)

/-- `PadImageGradientReflectNCHW`: every padded index atomically adds its
`top_diff` into the reflected target cell of the gradient buffer, which
`math::Set(output_size, 0, ...)` zero-fills first (the zero fill is
modelled from the spec; atomic float accumulation is modelled as the exact
rational sum of the contributions targeting the cell). -/
def PadImageGradientReflectNCHW (num channels height width paddedH paddedW padT padL : ℕ)
    (topDiff : ℕ → ℚ) (cell : ℕ) : ℚ :=
  ∑ index ∈ Finset.range (num * channels * paddedH * paddedW),
    if reflectTargetNCHW height width paddedH paddedW padT padL index = (cell : ℤ)
    then topDiff index else 0

/-- `PadImageGradientEdgeNCHW`, accumulated like the reflect kernel. -/
def PadImageGradientEdgeNCHW (num channels height width paddedH paddedW padT padL : ℕ)
    (topDiff : ℕ → ℚ) (cell : ℕ) : ℚ :=
  ∑ index ∈ Finset.range (num * channels * paddedH * paddedW),
    if edgeTargetNCHW height width paddedH paddedW padT padL index = cell
    then topDiff index else 0

/-- Host shape computation of
`PadImageGradientOp<float, HIPContext>::RunOnDeviceWithOrderNCHW`:
`dX.Resize(dY0, dY1, dY2 - pad_t - pad_b, dY3 - pad_l - pad_r)`. -/
def padGradOutputShapeNCHW (d0 d1 d2 d3 padT padB padL padR : ℕ) : List ℕ :=
  [d0, d1, d2 - padT - padB, d3 - padL - padR]

/-- Number of padded-output cells mapping to input cell `cell` under the
reflect transform. -/
def reflectPreimageCount (num channels height width paddedH paddedW padT padL cell : ℕ) :
    ℕ :=
  ((Finset.range (num * channels * paddedH * paddedW)).filter
    (fun index =>
      reflectTargetNCHW height width paddedH paddedW padT padL index = (cell : ℤ))).card

/-- Number of padded-output cells mapping to input cell `cell` under the
edge transform. -/
def edgePreimageCount (num channels height width paddedH paddedW padT padL cell : ℕ) : ℕ :=
  ((Finset.range (num * channels * paddedH * paddedW)).filter
    (fun index => edgeTargetNCHW height width paddedH paddedW padT padL index = cell)).card

/-- Number of padded coordinates along one dimension clamped to coordinate
`x` by the edge transform. -/
def edgeLineCount (pad padO size x : ℕ) : ℕ :=
  ((Finset.range (size + pad + padO)).filter (fun t => clampIdx pad size t = x)).card

theorem flat_lt (a b A B : ℕ) (ha : a < A) (hb : b < B) : a * B + b < A * B := by
  calc a * B + b < a * B + B := by omega
    _ = (a + 1) * B := by ring
    _ ≤ A * B := Nat.mul_le_mul_right B (by omega)

theorem sum_range_mul (f : ℕ → ℚ) (A B : ℕ) :
    ∑ i ∈ Finset.range (A * B), f i =
      ∑ a ∈ Finset.range A, ∑ b ∈ Finset.range B, f (a * B + b) := by
  induction A with
  | zero => simp
  | succ A ih =>
      have h1 : (A + 1) * B = A * B + B := by ring
      rw [h1]
      calc ∑ i ∈ Finset.range (A * B + B), f i
          = ∑ i ∈ Finset.Ico 0 (A * B + B), f i := by rw [Finset.range_eq_Ico]
        _ = (∑ i ∈ Finset.Ico 0 (A * B), f i) +
              ∑ i ∈ Finset.Ico (A * B) (A * B + B), f i :=
            (Finset.sum_Ico_consecutive f (Nat.zero_le _) (Nat.le_add_right _ _)).symm
        _ = (∑ a ∈ Finset.range A, ∑ b ∈ Finset.range B, f (a * B + b)) +
              ∑ b ∈ Finset.range B, f (A * B + b) := by
            rw [← Finset.range_eq_Ico, ih, Finset.sum_Ico_eq_sum_range]
            simp only [Nat.add_sub_cancel_left]
        _ = ∑ a ∈ Finset.range (A + 1), ∑ b ∈ Finset.range B, f (a * B + b) :=
            (Finset.sum_range_succ _ _).symm

theorem max_mul_max_le (a b c d : ℕ) :
    max a b * max c d ≤ max (max (a * c) (a * d)) (max (b * c) (b * d)) := by
  rcases le_total a b with h1 | h1 <;> rcases le_total c d with h2 | h2
  · rw [max_eq_right h1, max_eq_right h2]
    exact le_max_of_le_right (le_max_right _ _)
  · rw [max_eq_right h1, max_eq_left h2]
    exact le_max_of_le_right (le_max_left _ _)
  · rw [max_eq_left h1, max_eq_right h2]
    exact le_max_of_le_left (le_max_right _ _)
  · rw [max_eq_left h1, max_eq_left h2]
    exact le_max_of_le_left (le_max_left _ _)

theorem edgeLineCount_interior (pad padO size x : ℕ) (hx0 : 0 < x) (hx1 : x < size - 1) :
    edgeLineCount pad padO size x = 1 := by
  unfold edgeLineCount
  have hset : (Finset.range (size + pad + padO)).filter
      (fun t => clampIdx pad size t = x) = {pad + x} := by
    ext t
    simp only [Finset.mem_filter, Finset.mem_range, Finset.mem_singleton]
    unfold clampIdx
    simp only [min_def]
    constructor
    · rintro ⟨ht, hc⟩
      split at hc <;> omega
    · intro ht
      subst ht
      constructor
      · omega
      · split <;> omega
  rw [hset, Finset.card_singleton]

theorem edgeLineCount_pos (pad padO size x : ℕ) (hx : x < size) :
    1 ≤ edgeLineCount pad padO size x := by
  unfold edgeLineCount
  rw [Nat.one_le_iff_ne_zero, ← Nat.pos_iff_ne_zero, Finset.card_pos]
  refine ⟨x + pad, Finset.mem_filter.mpr ⟨Finset.mem_range.mpr (by omega), ?_⟩⟩
  exact clampIdx_interior pad size x hx

theorem edgeLineCount_le_corner (pad padO size x : ℕ) (h0 : 0 < size) (hx : x < size) :
    edgeLineCount pad padO size x ≤
      max (edgeLineCount pad padO size 0) (edgeLineCount pad padO size (size - 1)) := by
  by_cases hx0 : x = 0
  · subst hx0
    exact le_max_left _ _
  by_cases hx1 : x = size - 1
  · subst hx1
    exact le_max_right _ _
  have h1 : edgeLineCount pad padO size x = 1 :=
    edgeLineCount_interior pad padO size x (by omega) (by omega)
  rw [h1]
  exact le_trans (edgeLineCount_pos pad padO size 0 h0) (le_max_left _ _)

/-- With an all-ones upstream gradient, the reflect-mode backward value of
a cell is the number of padded indices targeting it. -/
theorem reflect_value_eq_count
    (num channels height width paddedH paddedW padT padL cell : ℕ) :
    PadImageGradientReflectNCHW num channels height width paddedH paddedW padT padL
        (fun _ => 1) cell =
      ((reflectPreimageCount num channels height width paddedH paddedW padT padL cell :
        ℕ) : ℚ) := by
  unfold PadImageGradientReflectNCHW reflectPreimageCount
  simp only [Finset.sum_boole]

/-- With an all-ones upstream gradient, the edge-mode backward value of a
cell is the number of padded indices targeting it. -/
theorem edge_value_eq_count
    (num channels height width paddedH paddedW padT padL cell : ℕ) :
    PadImageGradientEdgeNCHW num channels height width paddedH paddedW padT padL
        (fun _ => 1) cell =
      ((edgePreimageCount num channels height width paddedH paddedW padT padL cell :
        ℕ) : ℚ) := by
  unfold PadImageGradientEdgeNCHW edgePreimageCount
  simp only [Finset.sum_boole]

/-- Every valid input cell receives at least one reflect-mode contribution:
its own interior padded copy maps back to it. -/
theorem reflect_count_pos (num channels height width padT padB padL padR n c h w : ℕ)
    (hn : n < num) (hc : c < channels) (hh : h < height) (hw : w < width) :
    1 ≤ reflectPreimageCount num channels height width (height + padT + padB)
        (width + padL + padR) padT padL (((n * channels + c) * height + h) * width + w) := by
  unfold reflectPreimageCount
  rw [Nat.one_le_iff_ne_zero, ← Nat.pos_iff_ne_zero, Finset.card_pos]
  have hNC : n * channels + c < num * channels := by
    calc n * channels + c < n * channels + channels := by omega
      _ = (n + 1) * channels := by ring
      _ ≤ num * channels := Nat.mul_le_mul_right channels (by omega)
  refine ⟨((n * channels + c) * (height + padT + padB) + (h + padT)) *
      (width + padL + padR) + (w + padL),
    Finset.mem_filter.mpr ⟨Finset.mem_range.mpr ?_, ?_⟩⟩
  · exact flat_lt _ _ _ _ (flat_lt _ _ _ _ hNC (by omega)) (by omega)
  · unfold reflectTargetNCHW
    rw [flat_div _ _ _ (by omega : w + padL < width + padL + padR),
      flat_mod _ _ _ (by omega : w + padL < width + padL + padR),
      flat_div _ _ _ (by omega : h + padT < height + padT + padB),
      flat_mod _ _ _ (by omega : h + padT < height + padT + padB),
      reflectIdx_interior padT height h hh, reflectIdx_interior padL width w hw]
    push_cast
    ring

/-- Factorization of the edge-mode accumulated value: with all-ones
upstream gradient, a valid cell's value is the product of the per-row and
per-column clamp multiplicities. -/
theorem edge_value_eq_line_counts
    (num channels height width padT padB padL padR n c h w : ℕ)
    (hh0 : 0 < height) (hw0 : 0 < width)
    (hn : n < num) (hc : c < channels) (hh : h < height) (hw : w < width) :
    PadImageGradientEdgeNCHW num channels height width (height + padT + padB)
        (width + padL + padR) padT padL (fun _ => 1)
        (((n * channels + c) * height + h) * width + w) =
      ((edgeLineCount padT padB height h * edgeLineCount padL padR width w : ℕ) : ℚ) := by
  have hNC : n * channels + c < num * channels := by
    calc n * channels + c < n * channels + channels := by omega
      _ = (n + 1) * channels := by ring
      _ ≤ num * channels := Nat.mul_le_mul_right channels (by omega)
  have hsplit : ∀ (P Q R : Prop) (dp : Decidable P) (dq : Decidable Q) (dr : Decidable R),
      (@ite ℚ (P ∧ Q ∧ R) (instDecidableAnd) 1 0) =
        (@ite ℚ P dp 1 0) * ((@ite ℚ Q dq 1 0) * (@ite ℚ R dr 1 0)) := by
    intro P Q R dp dq dr
    by_cases hp : P <;> by_cases hq : Q <;> by_cases hr : R <;> simp [hp, hq, hr]
  have hbody : ∀ u ∈ Finset.range (num * channels),
      ∀ v ∈ Finset.range (height + padT + padB),
      ∀ b ∈ Finset.range (width + padL + padR),
      (if edgeTargetNCHW height width (height + padT + padB) (width + padL + padR)
            padT padL ((u * (height + padT + padB) + v) * (width + padL + padR) + b) =
          ((n * channels + c) * height + h) * width + w
        then (1 : ℚ) else 0) =
        (if u = n * channels + c then (1 : ℚ) else 0) *
          ((if clampIdx padT height v = h then (1 : ℚ) else 0) *
            (if clampIdx padL width b = w then (1 : ℚ) else 0)) := by
    intro u _ v hv b hb
    rw [Finset.mem_range] at hv hb
    have htgt : edgeTargetNCHW height width (height + padT + padB) (width + padL + padR)
        padT padL ((u * (height + padT + padB) + v) * (width + padL + padR) + b) =
        (u * height + clampIdx padT height v) * width + clampIdx padL width b := by
      unfold edgeTargetNCHW
      rw [flat_div _ _ _ hb, flat_mod _ _ _ hb, flat_div _ _ _ hv, flat_mod _ _ _ hv]
    rw [htgt]
    have hiff : (u * height + clampIdx padT height v) * width + clampIdx padL width b =
        ((n * channels + c) * height + h) * width + w ↔
        (u = n * channels + c ∧ clampIdx padT height v = h ∧ clampIdx padL width b = w) := by
      constructor
      · intro he
        obtain ⟨e1, e2⟩ := flat_inj width _ _ _ _ (clampIdx_lt padL width b hw0) hw he
        obtain ⟨e3, e4⟩ := flat_inj height _ _ _ _ (clampIdx_lt padT height v hh0) hh e1
        exact ⟨e3, e4, e2⟩
      · rintro ⟨rfl, e4, e2⟩
        rw [e4, e2]
    rw [if_congr hiff rfl rfl]
    exact hsplit _ _ _ _ _ _
  have main : (∑ u ∈ Finset.range (num * channels),
      ∑ v ∈ Finset.range (height + padT + padB),
      ∑ b ∈ Finset.range (width + padL + padR),
        (if edgeTargetNCHW height width (height + padT + padB) (width + padL + padR)
              padT padL ((u * (height + padT + padB) + v) * (width + padL + padR) + b) =
            ((n * channels + c) * height + h) * width + w
          then (1 : ℚ) else 0)) =
      ((edgeLineCount padT padB height h * edgeLineCount padL padR width w : ℕ) : ℚ) := by
    calc (∑ u ∈ Finset.range (num * channels),
        ∑ v ∈ Finset.range (height + padT + padB),
        ∑ b ∈ Finset.range (width + padL + padR),
          (if edgeTargetNCHW height width (height + padT + padB) (width + padL + padR)
                padT padL ((u * (height + padT + padB) + v) * (width + padL + padR) + b) =
              ((n * channels + c) * height + h) * width + w
            then (1 : ℚ) else 0))
        = ∑ u ∈ Finset.range (num * channels),
            (if u = n * channels + c then (1 : ℚ) else 0) *
              ∑ v ∈ Finset.range (height + padT + padB),
                ∑ b ∈ Finset.range (width + padL + padR),
                  ((if clampIdx padT height v = h then (1 : ℚ) else 0) *
                    (if clampIdx padL width b = w then (1 : ℚ) else 0)) := by
          refine Finset.sum_congr rfl (fun u hu => ?_)
          rw [Finset.mul_sum]
          refine Finset.sum_congr rfl (fun v hv => ?_)
          rw [Finset.mul_sum]
          refine Finset.sum_congr rfl (fun b hb => ?_)
          exact hbody u hu v hv b hb
      _ = ∑ u ∈ Finset.range (num * channels),
            (if u = n * channels + c then
              (∑ v ∈ Finset.range (height + padT + padB),
                ∑ b ∈ Finset.range (width + padL + padR),
                  ((if clampIdx padT height v = h then (1 : ℚ) else 0) *
                    (if clampIdx padL width b = w then (1 : ℚ) else 0)))
             else 0) := by
          refine Finset.sum_congr rfl (fun u _ => ?_)
          by_cases h1 : u = n * channels + c <;> simp [h1]
      _ = ∑ v ∈ Finset.range (height + padT + padB),
            ∑ b ∈ Finset.range (width + padL + padR),
              ((if clampIdx padT height v = h then (1 : ℚ) else 0) *
                (if clampIdx padL width b = w then (1 : ℚ) else 0)) := by
          rw [Finset.sum_ite_eq' (Finset.range (num * channels)) (n * channels + c)]
          rw [if_pos (Finset.mem_range.mpr hNC)]
      _ = (∑ v ∈ Finset.range (height + padT + padB),
            (if clampIdx padT height v = h then (1 : ℚ) else 0)) *
          ∑ b ∈ Finset.range (width + padL + padR),
            (if clampIdx padL width b = w then (1 : ℚ) else 0) :=
          (Finset.sum_mul_sum _ _ _ _).symm
      _ = ((edgeLineCount padT padB height h : ℕ) : ℚ) *
            ((edgeLineCount padL padR width w : ℕ) : ℚ) := by
          rw [Finset.sum_boole, Finset.sum_boole]
          unfold edgeLineCount
          rfl
      _ = ((edgeLineCount padT padB height h * edgeLineCount padL padR width w : ℕ) : ℚ) := by
          push_cast
          ring
  unfold PadImageGradientEdgeNCHW
  rw [sum_range_mul _ (num * channels * (height + padT + padB)) (width + padL + padR),
    sum_range_mul _ (num * channels) (height + padT + padB)]
  exact main

/-- Claim C6: for NCHW padding backward with an all-ones upstream gradient
over the padded shape, the gradient tensor has the original input shape,
and each input cell's value equals the number of padded-output cells that
map to it: exactly `1` for every cell in constant mode (direct gather,
no overlap), at least `1` in reflect and edge modes (accumulated
atomically into the zero-initialized buffer); in edge mode the value
factors into row and column clamp multiplicities and is maximal at one of
the four corner cells. -/
theorem PadImageGradient_multiplicities
    (num channels height width padT padB padL padR n c h w : ℕ)
    (hh0 : 0 < height) (hw0 : 0 < width)
    (hn : n < num) (hc : c < channels) (hh : h < height) (hw : w < width) :
    padGradOutputShapeNCHW num channels (height + padT + padB) (width + padL + padR)
        padT padB padL padR = [num, channels, height, width] ∧
    PadImageGradientConstNCHW height width (height + padT + padB) (width + padL + padR)
        padT padL (fun _ => 1) (((n * channels + c) * height + h) * width + w) = 1 ∧
    (PadImageGradientReflectNCHW num channels height width (height + padT + padB)
        (width + padL + padR) padT padL (fun _ => 1)
        (((n * channels + c) * height + h) * width + w) =
      ((reflectPreimageCount num channels height width (height + padT + padB)
          (width + padL + padR) padT padL
          (((n * channels + c) * height + h) * width + w) : ℕ) : ℚ) ∧
      1 ≤ reflectPreimageCount num channels height width (height + padT + padB)
          (width + padL + padR) padT padL
          (((n * channels + c) * height + h) * width + w)) ∧
    (PadImageGradientEdgeNCHW num channels height width (height + padT + padB)
        (width + padL + padR) padT padL (fun _ => 1)
        (((n * channels + c) * height + h) * width + w) =
      ((edgePreimageCount num channels height width (height + padT + padB)
          (width + padL + padR) padT padL
          (((n * channels + c) * height + h) * width + w) : ℕ) : ℚ) ∧
      edgePreimageCount num channels height width (height + padT + padB)
          (width + padL + padR) padT padL
          (((n * channels + c) * height + h) * width + w) =
        edgeLineCount padT padB height h * edgeLineCount padL padR width w ∧
      1 ≤ edgePreimageCount num channels height width (height + padT + padB)
          (width + padL + padR) padT padL
          (((n * channels + c) * height + h) * width + w) ∧
      edgePreimageCount num channels height width (height + padT + padB)
          (width + padL + padR) padT padL
          (((n * channels + c) * height + h) * width + w) ≤
        max (max (edgePreimageCount num channels height width (height + padT + padB)
              (width + padL + padR) padT padL
              (((n * channels + c) * height + 0) * width + 0))
            (edgePreimageCount num channels height width (height + padT + padB)
              (width + padL + padR) padT padL
              (((n * channels + c) * height + 0) * width + (width - 1))))
          (max (edgePreimageCount num channels height width (height + padT + padB)
              (width + padL + padR) padT padL
              (((n * channels + c) * height + (height - 1)) * width + 0))
            (edgePreimageCount num channels height width (height + padT + padB)
              (width + padL + padR) padT padL
              (((n * channels + c) * height + (height - 1)) * width + (width - 1))))) := by
  have hcount : ∀ x y, x < height → y < width →
      edgePreimageCount num channels height width (height + padT + padB)
        (width + padL + padR) padT padL (((n * channels + c) * height + x) * width + y) =
      edgeLineCount padT padB height x * edgeLineCount padL padR width y := by
    intro x y hx hy
    have h1 := edge_value_eq_line_counts num channels height width padT padB padL padR
      n c x y hh0 hw0 hn hc hx hy
    have h2 := edge_value_eq_count num channels height width (height + padT + padB)
      (width + padL + padR) padT padL (((n * channels + c) * height + x) * width + y)
    have h3 := h2.symm.trans h1
    exact_mod_cast h3
  refine ⟨?_, rfl,
    ⟨reflect_value_eq_count num channels height width (height + padT + padB)
        (width + padL + padR) padT padL (((n * channels + c) * height + h) * width + w),
      reflect_count_pos num channels height width padT padB padL padR n c h w
        hn hc hh hw⟩,
    edge_value_eq_count num channels height width (height + padT + padB)
      (width + padL + padR) padT padL (((n * channels + c) * height + h) * width + w),
    hcount h w hh hw, ?_, ?_⟩
  · have e1 : height + padT + padB - padT - padB = height := by omega
    have e2 : width + padL + padR - padL - padR = width := by omega
    unfold padGradOutputShapeNCHW
    rw [e1, e2]
  · rw [hcount h w hh hw]
    exact Nat.mul_pos (edgeLineCount_pos padT padB height h hh)
      (edgeLineCount_pos padL padR width w hw)
  · rw [hcount h w hh hw, hcount 0 0 hh0 hw0, hcount 0 (width - 1) hh0 (by omega),
      hcount (height - 1) 0 (by omega) hw0,
      hcount (height - 1) (width - 1) (by omega) (by omega)]
    calc edgeLineCount padT padB height h * edgeLineCount padL padR width w
        ≤ max (edgeLineCount padT padB height 0) (edgeLineCount padT padB height (height - 1)) *
          max (edgeLineCount padL padR width 0) (edgeLineCount padL padR width (width - 1)) :=
          Nat.mul_le_mul (edgeLineCount_le_corner padT padB height h hh0 hh)
            (edgeLineCount_le_corner padL padR width w hw0 hw)
      _ ≤ max (max (edgeLineCount padT padB height 0 * edgeLineCount padL padR width 0)
              (edgeLineCount padT padB height 0 * edgeLineCount padL padR width (width - 1)))
            (max (edgeLineCount padT padB height (height - 1) * edgeLineCount padL padR width 0)
              (edgeLineCount padT padB height (height - 1) *
                edgeLineCount padL padR width (width - 1))) := max_mul_max_le _ _ _ _

/-- Witness for C6: a `1 x 1 x 2 x 2` input padded by `1` on every side,
at input cell `(0, 0, 0, 0)`. -/
theorem PadImageGradient_multiplicities_witness :
    padGradOutputShapeNCHW 1 1 (2 + 1 + 1) (2 + 1 + 1) 1 1 1 1 = [1, 1, 2, 2] ∧
    PadImageGradientConstNCHW 2 2 (2 + 1 + 1) (2 + 1 + 1) 1 1 (fun _ => 1)
        (((0 * 1 + 0) * 2 + 0) * 2 + 0) = 1 ∧
    (PadImageGradientReflectNCHW 1 1 2 2 (2 + 1 + 1) (2 + 1 + 1) 1 1 (fun _ => 1)
        (((0 * 1 + 0) * 2 + 0) * 2 + 0) =
      ((reflectPreimageCount 1 1 2 2 (2 + 1 + 1) (2 + 1 + 1) 1 1
          (((0 * 1 + 0) * 2 + 0) * 2 + 0) : ℕ) : ℚ) ∧
      1 ≤ reflectPreimageCount 1 1 2 2 (2 + 1 + 1) (2 + 1 + 1) 1 1
          (((0 * 1 + 0) * 2 + 0) * 2 + 0)) ∧
    (PadImageGradientEdgeNCHW 1 1 2 2 (2 + 1 + 1) (2 + 1 + 1) 1 1 (fun _ => 1)
        (((0 * 1 + 0) * 2 + 0) * 2 + 0) =
      ((edgePreimageCount 1 1 2 2 (2 + 1 + 1) (2 + 1 + 1) 1 1
          (((0 * 1 + 0) * 2 + 0) * 2 + 0) : ℕ) : ℚ) ∧
      edgePreimageCount 1 1 2 2 (2 + 1 + 1) (2 + 1 + 1) 1 1
          (((0 * 1 + 0) * 2 + 0) * 2 + 0) =
        edgeLineCount 1 1 2 0 * edgeLineCount 1 1 2 0 ∧
      1 ≤ edgePreimageCount 1 1 2 2 (2 + 1 + 1) (2 + 1 + 1) 1 1
          (((0 * 1 + 0) * 2 + 0) * 2 + 0) ∧
      edgePreimageCount 1 1 2 2 (2 + 1 + 1) (2 + 1 + 1) 1 1
          (((0 * 1 + 0) * 2 + 0) * 2 + 0) ≤
        max (max (edgePreimageCount 1 1 2 2 (2 + 1 + 1) (2 + 1 + 1) 1 1
              (((0 * 1 + 0) * 2 + 0) * 2 + 0))
            (edgePreimageCount 1 1 2 2 (2 + 1 + 1) (2 + 1 + 1) 1 1
              (((0 * 1 + 0) * 2 + 0) * 2 + (2 - 1))))
          (max (edgePreimageCount 1 1 2 2 (2 + 1 + 1) (2 + 1 + 1) 1 1
              (((0 * 1 + 0) * 2 + (2 - 1)) * 2 + 0))
            (edgePreimageCount 1 1 2 2 (2 + 1 + 1) (2 + 1 + 1) 1 1
              (((0 * 1 + 0) * 2 + (2 - 1)) * 2 + (2 - 1))))) :=
  PadImageGradient_multiplicities 1 1 2 2 1 1 1 1 0 0 0 0
    (by decide) (by decide) (by decide) (by decide) (by decide) (by decide)

/-! One-hot encoding (`one_hot_ops_hip.cc`). -/

/-- `OneHotOp<HIPContext>::DoOneHotOp`: `math::Set` zero-fills the
`(batch_size, index_size)` output (the zero fill is modelled from the
spec, as `math::Set` lives outside `src/`), then `OneHotOpKernel` writes
`output[i * index_size + indices[i]] = 1.` for every `i < batch_size`;
the rows' writes target disjoint locations, so the sequential fold models
the parallel kernel. -/
def DoOneHotOp (batchSize indexSize : ℕ) (indices : ℕ → ℕ) : ℕ → ℚ :=
  (List.range batchSize).foldl
    (fun out i => Function.update out (i * indexSize + indices i) 1) (fun _ => 0)

theorem DoOneHotOp_succ (b indexSize : ℕ) (indices : ℕ → ℕ) :
    DoOneHotOp (b + 1) indexSize indices =
      Function.update (DoOneHotOp b indexSize indices) (b * indexSize + indices b) 1 := by
  unfold DoOneHotOp
  rw [List.range_succ, List.foldl_append, List.foldl_cons, List.foldl_nil]

theorem DoOneHotOp_zero_outside (b indexSize : ℕ) (indices : ℕ → ℕ) (x : ℕ)
    (hx : ∀ i, i < b → x ≠ i * indexSize + indices i) :
    DoOneHotOp b indexSize indices x = 0 := by
  induction b with
  | zero => rfl
  | succ b ih =>
      rw [DoOneHotOp_succ, Function.update_apply, if_neg (hx b (by omega))]
      exact ih (fun i hi => hx i (by omega))

theorem DoOneHotOp_cell (indexSize : ℕ) (indices : ℕ → ℕ) (r col : ℕ)
    (hcol : col < indexSize) :
    ∀ b, (∀ i, i < b → indices i < indexSize) → r < b →
      DoOneHotOp b indexSize indices (r * indexSize + col) =
        if col = indices r then 1 else 0 := by
  intro b
  induction b with
  | zero => intro _ hr; omega
  | succ b ih =>
      intro hind hr
      rw [DoOneHotOp_succ, Function.update_apply]
      by_cases hrb : r = b
      · subst hrb
        by_cases hcol2 : col = indices r
        · rw [if_pos (by rw [hcol2]), if_pos hcol2]
        · rw [if_neg (fun he => hcol2 (Nat.add_left_cancel he)), if_neg hcol2]
          apply DoOneHotOp_zero_outside
          intro i hi heq
          have hii : indices i < indexSize := hind i (by omega)
          obtain ⟨e1, _⟩ := flat_inj indexSize r col i (indices i) hcol hii heq
          omega
      · rw [if_neg ?_]
        · exact ih (fun i hi => hind i (by omega)) (by omega)
        · intro heq
          have hib : indices b < indexSize := hind b (by omega)
          obtain ⟨e1, _⟩ := flat_inj indexSize r col b (indices b) hcol hib heq
          exact hrb e1

/-- Claim C9: for every index array whose entries lie in
`[0, index_size)`, every output row `r` of the one-hot operator holds the
value `1` at column `indices r` and `0` at every other column — exactly
one `1` per row (the row sum is `1`). -/
theorem OneHot_rows (batchSize indexSize : ℕ) (indices : ℕ → ℕ)
    (hind : ∀ i, i < batchSize → indices i < indexSize)
    (r : ℕ) (hr : r < batchSize) :
    (∀ col, col < indexSize →
      DoOneHotOp batchSize indexSize indices (r * indexSize + col) =
        if col = indices r then 1 else 0) ∧
    ∑ col ∈ Finset.range indexSize,
      DoOneHotOp batchSize indexSize indices (r * indexSize + col) = 1 := by
  have hcell := fun col hcol =>
    DoOneHotOp_cell indexSize indices r col hcol batchSize hind hr
  refine ⟨hcell, ?_⟩
  rw [Finset.sum_congr rfl (fun col hcolm => hcell col (Finset.mem_range.mp hcolm))]
  rw [Finset.sum_ite_eq' (Finset.range indexSize) (indices r) (fun _ => (1 : ℚ))]
  rw [if_pos (Finset.mem_range.mpr (hind r hr))]

/-- Concrete index array for the C9 witness. -/
def c9Ind : ℕ → ℕ := fun i => i + 1

/-- Witness for C9: batch `2`, categories `3`, indices `[1, 2]`, row `0`. -/
theorem OneHot_rows_witness :
    (∀ col, col < 3 →
      DoOneHotOp 2 3 c9Ind (0 * 3 + col) = if col = c9Ind 0 then 1 else 0) ∧
    ∑ col ∈ Finset.range 3, DoOneHotOp 2 3 c9Ind (0 * 3 + col) = 1 :=
  OneHot_rows 2 3 c9Ind (by intro i hi; simp only [c9Ind]; omega) 0 (by decide)

end Caffe2Hip
